import Mathlib

/-!
Shallow embedding of the GCL configuration-language library
(`include/gcl/misc.hh`, `include/gcl/exception.hh`, `include/gcl/value.hh`,
`src/tokenizer.hh`, `src/tokenizer.cc`, `src/parser.cc`).

The tokenizer and parser are translated function by function.  Machine
integers (`uintptr_t` / `intptr_t`) are modelled as `Nat` reduced modulo
`2 ^ 64`, with two's-complement reinterpretation made explicit.  C++
exceptions become an `Except` error channel.  Every loop of the source is
translated with an explicit fuel parameter (structural recursion on `Nat`);
call sites supply a fuel that is proved sufficient, so that fuel exhaustion
is an error constructor that is proved unreachable (the termination
theorems below).
-/

namespace Gcl

/-! ## `include/gcl/misc.hh`: Span -/

structure Span where
  beginLineNumber : Nat := 0
  beginColumnNumber : Nat := 0
  endLineNumber : Nat := 0
  endColumnNumber : Nat := 0
deriving DecidableEq, Repr

/-! ## `include/gcl/exception.hh`: error taxonomy and exception type -/

inductive GclErrorID where
  | ExpectedIdentifier
  | ExpectedNumber
  | ExpectedPunctuaction
  | ExpectedStringEnd
  | ExpectedValue
  | KeyAlreadyDefined
  | InvalidDigit
  | InvalidEscape
  | UnknownChar
deriving DecidableEq, Repr

/-- The data handed to a `throw GclException(...)` site: the constructor
arguments (error id, span, rendered message).  This is what the parse
pipeline observably produces on failure. -/
structure GclThrow where
  errorID : GclErrorID
  span : Span
  info : String
deriving DecidableEq, Repr

/-- The `GclException` object itself, with its three data members. -/
structure GclException where
  errorID : GclErrorID
  span : Span
  info : String
deriving DecidableEq, Repr

/-- The `GclException` constructor exactly as written in the source:
its mem-initializer list is `span{span}, info{std::move(info)}` and its body
is empty, so the `errorID` member is never initialized from the `errorID`
parameter and keeps its indeterminate initial contents, modelled here by the
explicit `uninitErrorID` parameter. -/
def GclException.construct (errorID : GclErrorID) (span : Span) (info : String)
    (uninitErrorID : GclErrorID) : GclException :=
  { errorID := uninitErrorID, span := span, info := info }

/-- Error channel of the embedding: a thrown `GclException` payload, or
exhaustion of the fuel given to a translated loop. -/
inductive PErr where
  | gclError (e : GclThrow)
  | fuelOut
deriving DecidableEq, Repr

/-- `true` exactly on the fuel-exhaustion error; used to state that the
translated loops terminate within their supplied fuel. -/
def hitsFuelOut {α : Type} : Except PErr α → Bool
  | .error .fuelOut => true
  | _ => false

/-! ## `src/tokenizer.hh`: tokens -/

inductive TokenKind where
  | Eof
  | Int
  | Float
  | Identifier
  | String
  | Punctuaction
deriving DecidableEq, Repr

inductive Punctuaction where
  | Lbrace
  | Rbrace
  | Lsqb
  | Rsqb
  | Comma
  | Colon
deriving DecidableEq, Repr

/-- The `TokenData` union: one live member at a time.  `i` holds the
`uintptr_t` payload as a number below `2 ^ 64`; `f` holds the bits of the
(never lexed) float payload, left uninterpreted. -/
inductive TokenData where
  | i (v : Nat)
  | f (v : Nat)
  | identifier (s : String)
  | string (s : String)
  | punctuaction (p : Punctuaction)
deriving DecidableEq, Repr

structure Token where
  span : Span := {}
  kind : TokenKind := TokenKind.Eof
  data : TokenData := TokenData.i 0
deriving DecidableEq, Repr

/- Reads of a `TokenData` union member.  The source gates every such read by
`kind`, so under the tokenizer's invariant the member read is the live one;
a read of an inactive member (undefined behaviour in C++) is modelled by a
default value. -/

def Token.getInt (t : Token) : Nat :=
  match t.data with
  | TokenData.i v => v
  | _ => 0

def Token.getF (t : Token) : Nat :=
  match t.data with
  | TokenData.f v => v
  | _ => 0

def Token.getIdent (t : Token) : String :=
  match t.data with
  | TokenData.identifier s => s
  | _ => ""

def Token.getStr (t : Token) : String :=
  match t.data with
  | TokenData.string s => s
  | _ => ""

def Token.getPunct (t : Token) : Punctuaction :=
  match t.data with
  | TokenData.punctuaction p => p
  | _ => Punctuaction.Lbrace

/-! ## character helpers (`tokenizer.cc`, file-static functions) -/

def nulChar : Char := Char.ofNat 0

def lbraceChar : Char := Char.ofNat 123

def rbraceChar : Char := Char.ofNat 125

def isAlpha (c : Char) : Bool :=
  decide (('a' ≤ c ∧ c ≤ 'z') ∨ ('A' ≤ c ∧ c ≤ 'Z'))

def isDigitB (c : Char) (base : Nat) : Bool :=
  match base with
  | 10 => decide ('0' ≤ c ∧ c ≤ '9')
  | 16 => decide (('0' ≤ c ∧ c ≤ '9') ∨ ('A' ≤ c ∧ c ≤ 'F') ∨ ('a' ≤ c ∧ c ≤ 'f'))
  | 2 => decide ('0' ≤ c ∧ c ≤ '1')
  | _ => false

def isAlnum (c : Char) : Bool :=
  isAlpha c || isDigitB c 10

/-- `charToDigit` returns a C `int`, which can be negative for characters the
callers' guards exclude; hence the `Int` result. -/
def charToDigit (c : Char) (base : Nat) : Int :=
  if base ≤ 10 then (c.toNat : Int) - ('0'.toNat : Int)
  else if base = 16 then
    if c ≤ '9' then (c.toNat : Int) - ('0'.toNat : Int)
    else if c ≤ 'F' then (c.toNat : Int) - ('A'.toNat : Int) + 10
    else if c ≤ 'f' then (c.toNat : Int) - ('a'.toNat : Int) + 10
    else 0
  else 0

/-- `2 ^ 64`, the modulus of `uintptr_t` arithmetic. -/
def uintMod : Nat := 2 ^ 64

/-- Conversion of a C `int` value to `uintptr_t` (wraps negatives). -/
def uintNat (x : Int) : Nat := (x % (uintMod : Int)).toNat

/-- Reinterpretation of a `uintptr_t` bit pattern as the signed `intptr_t`
value (two's complement). -/
def toSigned (n : Nat) : Int :=
  if n < 2 ^ 63 then (n : Int) else (n : Int) - 2 ^ 64

/-! ## `src/tokenizer.hh`: tokenizer state -/

/-- The `Tokenizer` object.  `m_chars`/`m_length` become the list `chars`
(with `m_length = chars.length`); `m_index`, `m_lineNumber`, `m_columNumber`,
`m_char` and `m_token` are the remaining fields. -/
structure Tokenizer where
  chars : List Char
  index : Nat
  lineNumber : Nat
  columNumber : Nat
  chr : Char
  token : Token
deriving DecidableEq, Repr

/-- `Tokenizer::setText`: bind a buffer and reset all cursor state;
the initial character is read only when the buffer is non-empty. -/
def Tokenizer.setText (chars : List Char) : Tokenizer :=
  { chars := chars
    index := 0
    lineNumber := 1
    columNumber := 0
    chr := if chars.length > 0 then chars.getD 0 nulChar else nulChar
    token := {} }

/-- `Tokenizer::advanceChar`: step the byte cursor; at the end of the buffer
the current character becomes `'\0'` and `false` is returned, with no read
past the bound length. -/
def Tokenizer.advanceChar (t : Tokenizer) : Tokenizer × Bool :=
  if t.index + 1 ≥ t.chars.length then
    ({ t with chr := nulChar }, false)
  else
    if t.chars.getD (t.index + 1) nulChar = '\n' then
      ({ t with index := t.index + 1, chr := t.chars.getD (t.index + 1) nulChar,
                lineNumber := t.lineNumber + 1, columNumber := 0 }, true)
    else
      ({ t with index := t.index + 1, chr := t.chars.getD (t.index + 1) nulChar,
                columNumber := t.columNumber + 1 }, true)

/-- Fuel that is always sufficient for any single loop of the tokenizer
(each loop iteration advances the cursor inside the buffer or stops). -/
def Tokenizer.charFuel (t : Tokenizer) : Nat := t.chars.length + 2

/-- `m_token.kind = k; m_token.data = d` (placement-new of the payload). -/
def Tokenizer.setTok (t : Tokenizer) (k : TokenKind) (d : TokenData) : Tokenizer :=
  { t with token := { t.token with kind := k, data := d } }

/-- `Tokenizer::skipWhitespace`. -/
def skipWhitespace : Nat → Tokenizer → Except PErr Tokenizer
  | 0, _ => .error PErr.fuelOut
  | fuel+1, t =>
    if t.chr = ' ' ∨ t.chr = '\t' ∨ t.chr = '\n' then
      skipWhitespace fuel (t.advanceChar).1
    else .ok t

/-- The `while (m_char != '\n')` loop of `Tokenizer::skipComment`. -/
def skipCommentLoop : Nat → Tokenizer → Except PErr Tokenizer
  | 0, _ => .error PErr.fuelOut
  | fuel+1, t =>
    if t.chr ≠ '\n' then
      match t.advanceChar with
      | (t2, true) => skipCommentLoop fuel t2
      | (t2, false) => .ok t2
    else .ok t

/-- `Tokenizer::skipComment`. -/
def skipComment (t : Tokenizer) : Except PErr Tokenizer :=
  skipCommentLoop t.charFuel (t.advanceChar).1

/-- The `while (m_char == '#')` loop of `Tokenizer::advance`. -/
def commentLoop : Nat → Tokenizer → Except PErr Tokenizer
  | 0, _ => .error PErr.fuelOut
  | fuel+1, t =>
    if t.chr = '#' then
      match skipComment t with
      | .error e => .error e
      | .ok t2 =>
        match skipWhitespace t2.charFuel t2 with
        | .error e => .error e
        | .ok t3 => commentLoop fuel t3
    else .ok t

/-- The `while (advanceChar() && (isAlnum(m_char) || m_char == '_'))` loop of
`Tokenizer::readIdentifier`. -/
def identLoop : Nat → Tokenizer → String → Except PErr (Tokenizer × String)
  | 0, _, _ => .error PErr.fuelOut
  | fuel+1, t, acc =>
    match t.advanceChar with
    | (t2, ok) =>
      if ok = true ∧ (isAlnum t2.chr = true ∨ t2.chr = '_') then
        identLoop fuel t2 (acc.push t2.chr)
      else .ok (t2, acc)

/-- `Tokenizer::readIdentifier`. -/
def readIdentifier (t : Tokenizer) : Except PErr (Tokenizer × Bool) :=
  if isAlpha t.chr = true then
    match identLoop t.charFuel t (String.singleton t.chr) with
    | .error e => .error e
    | .ok (t2, ident) =>
      .ok (t2.setTok TokenKind.Identifier (TokenData.identifier ident), true)
  else .ok (t, false)

/-- The digit-accumulation loop of `Tokenizer::readNumber`:
`value *= base; value += charToDigit(m_char, base);` in `uintptr_t`
arithmetic. -/
def numLoop : Nat → Tokenizer → Nat → Nat → Except PErr (Tokenizer × Nat)
  | 0, _, _, _ => .error PErr.fuelOut
  | fuel+1, t, base, value =>
    match t.advanceChar with
    | (t2, ok) =>
      if ok = true ∧ isDigitB t2.chr base = true then
        numLoop fuel t2 base (((value * base) % uintMod + uintNat (charToDigit t2.chr base)) % uintMod)
      else .ok (t2, value)

/-- The `while (isAlnum(m_char)) advanceChar();` loop on the invalid-digit
error path of `Tokenizer::readNumber`. -/
def alnumSkip : Nat → Tokenizer → Except PErr Tokenizer
  | 0, _ => .error PErr.fuelOut
  | fuel+1, t =>
    if isAlnum t.chr = true then alnumSkip fuel (t.advanceChar).1
    else .ok t

/-- The sign handling of `Tokenizer::readNumber` (the final `throw` branch is
unreachable because of the caller's guard, but is translated anyway). -/
def numSign (t : Tokenizer) : Except PErr (Tokenizer × Bool) :=
  if ¬ isDigitB t.chr 10 = true then
    if t.chr = '-' then .ok ((t.advanceChar).1, true)
    else if t.chr = '+' then .ok ((t.advanceChar).1, false)
    else .error (PErr.gclError
      { errorID := GclErrorID.UnknownChar, span := t.token.span,
        info := "unknown character `" ++ String.singleton t.chr ++ "`" })
  else .ok (t, false)

def setIntToken (t : Tokenizer) (value : Nat) : Tokenizer :=
  { t with token := { t.token with kind := TokenKind.Int, data := TokenData.i value } }

/-- The base check after a `0b`/`0x` prefix in `Tokenizer::readNumber`. -/
def checkFirstDigit (t : Tokenizer) (base : Nat) :
    Except PErr ((Tokenizer × Nat) ⊕ Tokenizer) :=
  if ¬ isDigitB t.chr base = true then
    .error (PErr.gclError
      { errorID := GclErrorID.InvalidDigit, span := t.token.span,
        info := "invalid digit `" ++ String.singleton t.chr ++ "` for base " ++ toString base })
  else .ok (.inl (t, base))

/-- The leading-zero / base-prefix handling of `Tokenizer::readNumber`.
`.inr` is the early `return true` with an `Int 0` token for a bare zero;
`.inl` carries the state and selected base into the digit loop. -/
def numZeroBase (t : Tokenizer) : Except PErr ((Tokenizer × Nat) ⊕ Tokenizer) :=
  if t.chr = '0' then
    if ¬ isDigitB (t.advanceChar).1.chr 10 = true then
      if (t.advanceChar).1.chr = 'b' ∨ (t.advanceChar).1.chr = 'B' then
        checkFirstDigit ((t.advanceChar).1.advanceChar).1 2
      else if (t.advanceChar).1.chr = 'x' ∨ (t.advanceChar).1.chr = 'X' then
        checkFirstDigit ((t.advanceChar).1.advanceChar).1 16
      else .ok (.inr (setIntToken (t.advanceChar).1 0))
    else .ok (.inl ((t.advanceChar).1, 10))
  else .ok (.inl (t, 10))

/-- `Tokenizer::readNumber`. -/
def readNumber (t : Tokenizer) : Except PErr (Tokenizer × Bool) :=
  if ¬ isDigitB t.chr 10 = true ∧ t.chr ≠ '-' ∧ t.chr ≠ '+' then .ok (t, false)
  else
    match numSign t with
    | .error e => .error e
    | .ok (t1, isNeg) =>
      match numZeroBase t1 with
      | .error e => .error e
      | .ok (.inr t2) => .ok (t2, true)
      | .ok (.inl (t2, base)) =>
        match numLoop t2.charFuel t2 base (uintNat (charToDigit t2.chr base)) with
        | .error e => .error e
        | .ok (t3, value) =>
          if isAlnum t3.chr = true then
            match alnumSkip (t3.advanceChar).1.charFuel (t3.advanceChar).1 with
            | .error e => .error e
            | .ok t4 => .error (PErr.gclError
                { errorID := GclErrorID.InvalidDigit, span := t4.token.span,
                  info := "invalid digit `" ++ String.singleton t3.chr ++
                          "` for base " ++ toString base })
          else
            .ok (setIntToken t3 (if isNeg then (uintMod - value) % uintMod else value), true)

def punctOf (c : Char) : Option Punctuaction :=
  if c = lbraceChar then some Punctuaction.Lbrace
  else if c = rbraceChar then some Punctuaction.Rbrace
  else if c = '[' then some Punctuaction.Lsqb
  else if c = ']' then some Punctuaction.Rsqb
  else if c = ',' then some Punctuaction.Comma
  else if c = ':' then some Punctuaction.Colon
  else none

/-- `Tokenizer::readPunctuaction`. -/
def readPunctuaction (t : Tokenizer) : Except PErr (Tokenizer × Bool) :=
  match punctOf t.chr with
  | none => .ok (t, false)
  | some p =>
    let t2 := (t.advanceChar).1
    .ok (t2.setTok TokenKind.Punctuaction (TokenData.punctuaction p), true)

/-- The escape set of `Tokenizer::readString`. -/
def escapeChar : Char → Option Char
  | 'n' => some '\n'
  | 't' => some '\t'
  | '\\' => some '\\'
  | '"' => some '"'
  | _ => none

/-- The `while (advanceChar() && m_char != '"')` loop of
`Tokenizer::readString`. -/
def strLoop : Nat → Tokenizer → String → Except PErr (Tokenizer × String)
  | 0, _, _ => .error PErr.fuelOut
  | fuel+1, t, acc =>
    match t.advanceChar with
    | (t2, ok) =>
      if ok = true ∧ t2.chr ≠ '"' then
        if t2.chr = '\n' then
          .error (PErr.gclError
            { errorID := GclErrorID.ExpectedStringEnd, span := t2.token.span,
              info := "expected string end" })
        else if t2.chr = '\\' then
          match escapeChar (t2.advanceChar).1.chr with
          | some c => strLoop fuel (t2.advanceChar).1 (acc.push c)
          | none => .error (PErr.gclError
              { errorID := GclErrorID.InvalidEscape, span := (t2.advanceChar).1.token.span,
                info := "invalid escape sequence `" ++
                         String.singleton (t2.advanceChar).1.chr ++ "`" })
        else strLoop fuel t2 (acc.push t2.chr)
      else .ok (t2, acc)

/-- `Tokenizer::readString`. -/
def readString (t : Tokenizer) : Except PErr (Tokenizer × Bool) :=
  if t.chr ≠ '"' then .ok (t, false)
  else
    match strLoop t.charFuel t "" with
    | .error e => .error e
    | .ok (t2, s) =>
      if t2.chr ≠ '"' then
        .error (PErr.gclError
          { errorID := GclErrorID.ExpectedStringEnd, span := t2.token.span,
            info := "expected string end" })
      else
        let t3 := (t2.advanceChar).1
        .ok (t3.setTok TokenKind.String (TokenData.string s), true)

/-- `Tokenizer::readMisc`: `'\0'` yields the Eof token, anything else is an
unknown character. -/
def readMisc (t : Tokenizer) : Except PErr (Tokenizer × Bool) :=
  if t.chr = nulChar then
    .ok ({ t with token := { t.token with kind := TokenKind.Eof } }, true)
  else
    .error (PErr.gclError
      { errorID := GclErrorID.UnknownChar, span := t.token.span,
        info := "unknown character `" ++ String.singleton t.chr ++ "`" })

/-- The fixed-priority dispatch of `Tokenizer::advance` over the read
methods, first match wins. -/
def dispatchReads (t : Tokenizer) : Except PErr Tokenizer :=
  match readIdentifier t with
  | .error e => .error e
  | .ok (t1, true) => .ok t1
  | .ok (t1, false) =>
    match readNumber t1 with
    | .error e => .error e
    | .ok (t2, true) => .ok t2
    | .ok (t2, false) =>
      match readPunctuaction t2 with
      | .error e => .error e
      | .ok (t3, true) => .ok t3
      | .ok (t3, false) =>
        match readString t3 with
        | .error e => .error e
        | .ok (t4, true) => .ok t4
        | .ok (t4, false) =>
          match readMisc t4 with
          | .error e => .error e
          | .ok (t5, _) => .ok t5

/-- `m_token.reset()` followed by stamping the token-start span from the
current line/column (the first half of `Tokenizer::advance`'s token
set-up). -/
def Tokenizer.resetTok (t : Tokenizer) : Tokenizer :=
  { t with token :=
    { span := { beginLineNumber := t.lineNumber, beginColumnNumber := t.columNumber,
                endLineNumber := t.lineNumber, endColumnNumber := t.columNumber }
      kind := TokenKind.Eof
      data := t.token.data } }

/-- Stamping the token-end span after the read dispatch (the second half of
`Tokenizer::advance`'s token set-up). -/
def Tokenizer.stampEnd (t : Tokenizer) : Tokenizer :=
  { t with token := { t.token with span :=
    { t.token.span with endLineNumber := t.lineNumber,
                        endColumnNumber := t.columNumber } } }

/-- `Tokenizer::advance`: skip whitespace and comments, reset the token and
stamp its start span, run the read dispatch, stamp the end span, and report
whether the new token is non-Eof. -/
def Tokenizer.advance (t : Tokenizer) : Except PErr (Tokenizer × Bool) :=
  match skipWhitespace t.charFuel t with
  | .error e => .error e
  | .ok ta =>
    match commentLoop ta.charFuel ta with
    | .error e => .error e
    | .ok tb =>
      match dispatchReads tb.resetTok with
      | .error e => .error e
      | .ok td => .ok (td.stampEnd, td.stampEnd.token.kind != TokenKind.Eof)

/-! ## `include/gcl/value.hh`: the document value -/

inductive ValueType where
  | Undefined
  | Null
  | Bool
  | Int
  | Float
  | String
  | Array
  | Dict
deriving DecidableEq, Repr

/-- The document tree produced by the parser, as a native sum over the eight
kinds.  `int` and `float` hold bit patterns (`intptr_t` as a number below
`2 ^ 64`, float bits uninterpreted); `dict` is the contents of the
`std::map` in its key-sorted iteration order. -/
inductive GValue where
  | undefined
  | null
  | bool (b : Bool)
  | int (i : Nat)
  | float (f : Nat)
  | str (s : String)
  | arr (xs : List GValue)
  | dict (xs : List (String × GValue))
deriving Repr

/-! ## token formatting (`std::formatter` specializations, `tokenizer.cc`) -/

def formatPunct : Punctuaction → String
  | Punctuaction.Lbrace => "\x7b"
  | Punctuaction.Rbrace => "\x7d"
  | Punctuaction.Lsqb => "["
  | Punctuaction.Rsqb => "]"
  | Punctuaction.Comma => ","
  | Punctuaction.Colon => ":"

def formatTokenKind : TokenKind → String
  | TokenKind.Eof => "eof"
  | TokenKind.Int => "int"
  | TokenKind.Float => "float"
  | TokenKind.Identifier => "identifier"
  | TokenKind.String => "string"
  | TokenKind.Punctuaction => "punctuaction"

/-- `std::formatter<Token>`: Int payloads are printed through
`formatter<intptr_t>`, i.e. as the signed reinterpretation. -/
def formatToken (t : Token) : String :=
  match t.kind with
  | TokenKind.Int => toString (toSigned t.getInt)
  | TokenKind.Float => toString (toSigned t.getF)
  | TokenKind.Identifier => t.getIdent
  | TokenKind.String => t.getStr
  | TokenKind.Punctuaction => formatPunct t.getPunct
  | TokenKind.Eof => formatTokenKind TokenKind.Eof

/-! ## `src/parser.cc`: the recursive-descent parser -/

/-- Lexicographic character-list comparison: `std::string::operator<`
(strict weak order used by `std::map`'s `std::less<std::string>`). -/
def charListLt : List Char → List Char → Bool
  | [], [] => false
  | [], _ :: _ => true
  | _ :: _, [] => false
  | c1 :: r1, c2 :: r2 =>
    if c1.toNat < c2.toNat then true
    else if c2.toNat < c1.toNat then false
    else charListLt r1 r2

/-- `std::string` comparison, `a < b`. -/
def strLt (a b : String) : Bool := charListLt a.toList b.toList

/-- `std::map<std::string, Value>::insert`: descend the key ordering, insert
if the key is absent, return `none` when the key is already present (the
stored mapping is unchanged). -/
def dictInsert : List (String × GValue) → String → GValue →
    Option (List (String × GValue))
  | [], k, v => some [(k, v)]
  | (k1, v1) :: rest, k, v =>
    if strLt k k1 = true then some ((k, v) :: (k1, v1) :: rest)
    else if strLt k1 k = true then
      match dictInsert rest k v with
      | some rest2 => some ((k1, v1) :: rest2)
      | none => none
    else none

/-- The five mutually recursive parsing functions of `Parser`
(`parseValue`, `parseArray` and its element loop, `parseDict` and its pair
loop).  The mutual recursion is tied with an explicit fuel below
(`parserFns`): each body receives the functions to use for its recursive
calls. -/
structure ParserFns where
  valueFn : Tokenizer → Except PErr (Bool × GValue × Tokenizer)
  arrayFn : Tokenizer → Except PErr (List GValue × Tokenizer)
  dictFn : Tokenizer → Except PErr (List (String × GValue) × Tokenizer)
  arrayLoopFn : List GValue → Tokenizer → Except PErr (List GValue × Tokenizer)
  dictLoopFn : List (String × GValue) → Tokenizer →
    Except PErr (List (String × GValue) × Tokenizer)

/-- `Parser::parseValue`.  Returns the `bool` result together with the
output `Value` (callers pass a fresh `Value`, i.e. `Undefined`) and the
tokenizer state.  Note the translation of the source exactly: a
`Punctuaction` token other than `{` and `[` takes the first branch of the
if-chain, matches neither inner test, and falls through to `return true`
with the output left untouched. -/
def parseValueBody (fns : ParserFns) (tk : Tokenizer) :
    Except PErr (Bool × GValue × Tokenizer) :=
    match tk.token.kind with
    | TokenKind.Punctuaction =>
      if tk.token.getPunct = Punctuaction.Lbrace then
        match fns.dictFn tk with
        | .error e => .error e
        | .ok (entries, tk2) => .ok (true, GValue.dict entries, tk2)
      else if tk.token.getPunct = Punctuaction.Lsqb then
        match fns.arrayFn tk with
        | .error e => .error e
        | .ok (elems, tk2) => .ok (true, GValue.arr elems, tk2)
      else .ok (true, GValue.undefined, tk)
    | TokenKind.String =>
      match tk.advance with
      | .error e => .error e
      | .ok (tk2, _) => .ok (true, GValue.str tk.token.getStr, tk2)
    | TokenKind.Int =>
      match tk.advance with
      | .error e => .error e
      | .ok (tk2, _) => .ok (true, GValue.int tk.token.getInt, tk2)
    | TokenKind.Float =>
      match tk.advance with
      | .error e => .error e
      | .ok (tk2, _) => .ok (true, GValue.float tk.token.getF, tk2)
    | TokenKind.Identifier =>
      if tk.token.getIdent = "true" then
        match tk.advance with
        | .error e => .error e
        | .ok (tk2, _) => .ok (true, GValue.bool true, tk2)
      else if tk.token.getIdent = "false" then
        match tk.advance with
        | .error e => .error e
        | .ok (tk2, _) => .ok (true, GValue.bool false, tk2)
      else if tk.token.getIdent = "null" then
        match tk.advance with
        | .error e => .error e
        | .ok (tk2, _) => .ok (true, GValue.null, tk2)
      else .ok (false, GValue.undefined, tk)
    | TokenKind.Eof => .ok (false, GValue.undefined, tk)

/-- `Parser::parseArray`: eat `[`, run the element loop, require and eat the
closing `]`. -/
def parseArrayBody (fns : ParserFns) (tk : Tokenizer) :
    Except PErr (List GValue × Tokenizer) :=
    match tk.advance with
    | .error e => .error e
    | .ok (tk1, _) =>
      match fns.arrayLoopFn [] tk1 with
      | .error e => .error e
      | .ok (elems, tk2) =>
        if tk2.token.kind = TokenKind.Punctuaction ∧
           tk2.token.getPunct = Punctuaction.Rsqb then
          match tk2.advance with
          | .error e => .error e
          | .ok (tk3, _) => .ok (elems, tk3)
        else .error (PErr.gclError
          { errorID := GclErrorID.ExpectedPunctuaction, span := tk2.token.span,
            info := "expected `]` but found `" ++ formatToken tk2.token ++ "`" })

/-- The `for (;;)` element loop of `Parser::parseArray`. -/
def arrayLoopBody (fns : ParserFns) (acc : List GValue) (tk : Tokenizer) :
    Except PErr (List GValue × Tokenizer) :=
    match fns.valueFn tk with
    | .error e => .error e
    | .ok (ok, v, tk1) =>
      if ok = false then
        .error (PErr.gclError
          { errorID := GclErrorID.ExpectedValue, span := tk1.token.span,
            info := "expected a value but found `" ++ formatToken tk1.token ++ "`" })
      else
        if tk1.token.kind = TokenKind.Punctuaction ∧
           tk1.token.getPunct = Punctuaction.Comma then
          match tk1.advance with
          | .error e => .error e
          | .ok (tk2, _) => fns.arrayLoopFn (acc ++ [v]) tk2
        else if tk1.token.kind = TokenKind.Punctuaction ∧
                tk1.token.getPunct = Punctuaction.Rsqb then
          .ok (acc ++ [v], tk1)
        else .error (PErr.gclError
          { errorID := GclErrorID.ExpectedPunctuaction, span := tk1.token.span,
            info := "expected `,` but found `" ++ formatToken tk1.token ++ "`" })

/-- `Parser::parseDict`: eat the left brace, run the pair loop, require and
eat the closing brace. -/
def parseDictBody (fns : ParserFns) (tk : Tokenizer) :
    Except PErr (List (String × GValue) × Tokenizer) :=
    match tk.advance with
    | .error e => .error e
    | .ok (tk1, _) =>
      match fns.dictLoopFn [] tk1 with
      | .error e => .error e
      | .ok (entries, tk2) =>
        if tk2.token.kind = TokenKind.Punctuaction ∧
           tk2.token.getPunct = Punctuaction.Rbrace then
          match tk2.advance with
          | .error e => .error e
          | .ok (tk3, _) => .ok (entries, tk3)
        else .error (PErr.gclError
          { errorID := GclErrorID.ExpectedPunctuaction, span := tk2.token.span,
            info := "expected `\x7d` but found `" ++ formatToken tk2.token ++ "`" })

/-- The `for (;;)` pair loop of `Parser::parseDict`.  Note that the
duplicate-key throw site passes `GclErrorID::ExpectedPunctuaction` (not
`KeyAlreadyDefined`) to the exception constructor, exactly as the source
does. -/
def dictLoopBody (fns : ParserFns) (acc : List (String × GValue)) (tk : Tokenizer) :
    Except PErr (List (String × GValue) × Tokenizer) :=
    if tk.token.kind ≠ TokenKind.Identifier then .ok (acc, tk)
    else
      match tk.advance with
      | .error e => .error e
      | .ok (tk1, _) =>
        if ¬ (tk1.token.kind = TokenKind.Punctuaction ∧
              tk1.token.getPunct = Punctuaction.Colon) then
          .error (PErr.gclError
            { errorID := GclErrorID.ExpectedPunctuaction, span := tk1.token.span,
              info := "expected `:` but found `" ++ formatToken tk1.token ++ "`" })
        else
          match tk1.advance with
          | .error e => .error e
          | .ok (tk2, _) =>
            match fns.valueFn tk2 with
            | .error e => .error e
            | .ok (ok, v, tk3) =>
              if ok = false then
                .error (PErr.gclError
                  { errorID := GclErrorID.ExpectedValue, span := tk3.token.span,
                    info := "expected a value but found `" ++ formatToken tk3.token ++ "`" })
              else
                match dictInsert acc tk.token.getIdent v with
                | none =>
                  .error (PErr.gclError
                    { errorID := GclErrorID.ExpectedPunctuaction, span := tk3.token.span,
                      info := "key `" ++ tk.token.getIdent ++ "` already defined" })
                | some acc2 =>
                  if tk3.token.kind = TokenKind.Punctuaction ∧
                     tk3.token.getPunct = Punctuaction.Comma then
                    match tk3.advance with
                    | .error e => .error e
                    | .ok (tk4, _) => fns.dictLoopFn acc2 tk4
                  else if tk3.token.kind = TokenKind.Punctuaction ∧
                          tk3.token.getPunct = Punctuaction.Rbrace then
                    .ok (acc2, tk3)
                  else .error (PErr.gclError
                    { errorID := GclErrorID.ExpectedPunctuaction, span := tk3.token.span,
                      info := "expected `,` but found `" ++ formatToken tk3.token ++ "`" })

/-- Zero-fuel parser: every entry point reports fuel exhaustion. -/
def parserFnsZero : ParserFns where
  valueFn := fun _ => .error PErr.fuelOut
  arrayFn := fun _ => .error PErr.fuelOut
  dictFn := fun _ => .error PErr.fuelOut
  arrayLoopFn := fun _ _ => .error PErr.fuelOut
  dictLoopFn := fun _ _ => .error PErr.fuelOut

/-- The parser functions with a given amount of fuel: each mutual call
(from any body to any of the five functions) costs one unit of fuel. -/
def parserFns : Nat → ParserFns
  | 0 => parserFnsZero
  | fuel+1 =>
    let fns := parserFns fuel
    { valueFn := parseValueBody fns
      arrayFn := parseArrayBody fns
      dictFn := parseDictBody fns
      arrayLoopFn := arrayLoopBody fns
      dictLoopFn := dictLoopBody fns }

/-- `Parser::parseValue` with fuel. -/
def parseValue (fuel : Nat) (tk : Tokenizer) : Except PErr (Bool × GValue × Tokenizer) :=
  (parserFns fuel).valueFn tk

/-- `Parser::parseArray` with fuel. -/
def parseArray (fuel : Nat) (tk : Tokenizer) : Except PErr (List GValue × Tokenizer) :=
  (parserFns fuel).arrayFn tk

/-- `Parser::parseDict` with fuel. -/
def parseDict (fuel : Nat) (tk : Tokenizer) :
    Except PErr (List (String × GValue) × Tokenizer) :=
  (parserFns fuel).dictFn tk

/-- The element loop of `Parser::parseArray` with fuel. -/
def arrayLoop (fuel : Nat) (acc : List GValue) (tk : Tokenizer) :
    Except PErr (List GValue × Tokenizer) :=
  (parserFns fuel).arrayLoopFn acc tk

/-- The pair loop of `Parser::parseDict` with fuel. -/
def dictLoop (fuel : Nat) (acc : List (String × GValue)) (tk : Tokenizer) :
    Except PErr (List (String × GValue) × Tokenizer) :=
  (parserFns fuel).dictLoopFn acc tk

/-- Fuel supplied to the parser by `parse`; proved sufficient below. -/
def parserFuel (chars : List Char) : Nat := 6 * chars.length + 16

/-- `gcl::parse(Value&, char const*, size_t)`: bind the buffer, pull the
first token, parse one value.  The result pairs the `bool` return with the
output `Value` (which the caller initialized to `Undefined`). -/
def parse (chars : List Char) : Except PErr (Bool × GValue) :=
  match (Tokenizer.setText chars).advance with
  | .error e => .error e
  | .ok (tk, _) =>
    match parseValue (parserFuel chars) tk with
    | .error e => .error e
    | .ok (ok, v, _) => .ok (ok, v)

/-! ## the dict ordering invariant -/

/-- Adjacent keys strictly increase in `std::string` order: the key-sorted
iteration order of `std::map`, which also forces key uniqueness. -/
def keysSorted : List (String × GValue) → Bool
  | [] => true
  | [_] => true
  | (k1, v1) :: (k2, v2) :: rest => strLt k1 k2 && keysSorted ((k2, v2) :: rest)

mutual

/-- Every dict node anywhere in a value tree is key-sorted. -/
def GValue.dictsOk : GValue → Bool
  | GValue.undefined => true
  | GValue.null => true
  | GValue.bool _ => true
  | GValue.int _ => true
  | GValue.float _ => true
  | GValue.str _ => true
  | GValue.arr xs => arrOk xs
  | GValue.dict xs => keysSorted xs && entriesOk xs

def arrOk : List GValue → Bool
  | [] => true
  | x :: xs => x.dictsOk && arrOk xs

def entriesOk : List (String × GValue) → Bool
  | [] => true
  | (_, v) :: xs => v.dictsOk && entriesOk xs

end

/-! ## `include/gcl/value.hh`: the `Value` class (manual tagged union) -/

/-- The `ValueData` union: the live member is one of these cases.  `i` and
`f` hold the `intptr_t` / `float` payloads as bit patterns; containers hold
the already-modelled document values. -/
inductive CValueData where
  | b (x : Bool)
  | i (x : Nat)
  | f (x : Nat)
  | str (x : String)
  | arr (x : List GValue)
  | dict (x : List (String × GValue))

/-- The `Value` class: a kind tag plus the union. -/
structure CValue where
  type : ValueType
  data : CValueData

/- Reads of a `ValueData` union member: the source performs them only when
the tag matches, so under the well-formedness invariant the live member is
read; a wrong-member read (undefined behaviour in C++) is modelled by a
default. -/

def CValueData.readB : CValueData → Bool
  | CValueData.b x => x
  | _ => false

def CValueData.readI : CValueData → Nat
  | CValueData.i x => x
  | _ => 0

def CValueData.readF : CValueData → Nat
  | CValueData.f x => x
  | _ => 0

def CValueData.readStr : CValueData → String
  | CValueData.str x => x
  | _ => ""

def CValueData.readArr : CValueData → List GValue
  | CValueData.arr x => x
  | _ => []

def CValueData.readDict : CValueData → List (String × GValue)
  | CValueData.dict x => x
  | _ => []

/- The public constructors of `Value`.  `Value()` and `Value(nullptr)` leave
the union at its default (`i{0}`). -/

def CValue.ofDefault : CValue := { type := ValueType.Undefined, data := CValueData.i 0 }

def CValue.ofNullptr : CValue := { type := ValueType.Null, data := CValueData.i 0 }

def CValue.ofBool (x : Bool) : CValue := { type := ValueType.Bool, data := CValueData.b x }

def CValue.ofInt (x : Nat) : CValue := { type := ValueType.Int, data := CValueData.i x }

def CValue.ofFloat (x : Nat) : CValue := { type := ValueType.Float, data := CValueData.f x }

def CValue.ofString (x : String) : CValue :=
  { type := ValueType.String, data := CValueData.str x }

def CValue.ofArray (x : List GValue) : CValue :=
  { type := ValueType.Array, data := CValueData.arr x }

def CValue.ofDict (x : List (String × GValue)) : CValue :=
  { type := ValueType.Dict, data := CValueData.dict x }

/-- The "exactly one variant's storage is live" invariant: the union's case
matches the tag (with the default `i 0` contents for `Undefined`/`Null`,
as the constructors establish). -/
def CValue.wf (v : CValue) : Bool :=
  match v.type, v.data with
  | ValueType.Undefined, CValueData.i n => n == 0
  | ValueType.Null, CValueData.i n => n == 0
  | ValueType.Bool, CValueData.b _ => true
  | ValueType.Int, CValueData.i _ => true
  | ValueType.Float, CValueData.f _ => true
  | ValueType.String, CValueData.str _ => true
  | ValueType.Array, CValueData.arr _ => true
  | ValueType.Dict, CValueData.dict _ => true
  | _, _ => false

/- The typed accessors: throw `std::runtime_error` on a tag mismatch,
otherwise return the live payload. -/

def CValue.getBool (v : CValue) : Except String Bool :=
  if v.type ≠ ValueType.Bool then .error "Value::getBool() -> type mismatch"
  else .ok v.data.readB

def CValue.getInt (v : CValue) : Except String Nat :=
  if v.type ≠ ValueType.Int then .error "Value::getInt() -> type mismatch"
  else .ok v.data.readI

def CValue.getFloat (v : CValue) : Except String Nat :=
  if v.type ≠ ValueType.Float then .error "Value::getFloat() -> type mismatch"
  else .ok v.data.readF

def CValue.getString (v : CValue) : Except String String :=
  if v.type ≠ ValueType.String then .error "Value::getString() -> type mismatch"
  else .ok v.data.readStr

def CValue.getArray (v : CValue) : Except String (List GValue) :=
  if v.type ≠ ValueType.Array then .error "Value::getArray() -> type mismatch"
  else .ok v.data.readArr

def CValue.getDict (v : CValue) : Except String (List (String × GValue)) :=
  if v.type ≠ ValueType.Dict then .error "Value::getDict() -> type mismatch"
  else .ok v.data.readDict

/-- Did the call return normally (no throw)? -/
def exOk {ε α : Type} : Except ε α → Bool
  | .ok _ => true
  | .error _ => false

/-- The number of the six typed accessors that succeed on `v`. -/
def CValue.succCount (v : CValue) : Nat :=
  (if exOk v.getBool then 1 else 0) + (if exOk v.getInt then 1 else 0) +
  (if exOk v.getFloat then 1 else 0) + (if exOk v.getString then 1 else 0) +
  (if exOk v.getArray then 1 else 0) + (if exOk v.getDict then 1 else 0)

/-- `Value::moveDataTo`: switch on the tag, transfer the matching member;
the default case (`Undefined`/`Null`) writes `dest.i = 0`. -/
def moveDataTo (type : ValueType) (src : CValueData) : CValueData :=
  match type with
  | ValueType.Bool => CValueData.b src.readB
  | ValueType.Int => CValueData.i src.readI
  | ValueType.Float => CValueData.f src.readF
  | ValueType.String => CValueData.str src.readStr
  | ValueType.Array => CValueData.arr src.readArr
  | ValueType.Dict => CValueData.dict src.readDict
  | _ => CValueData.i 0

/-- `Value(Value&& that)`: take the tag, move the payload, set the source's
tag to `Undefined` (the source's union keeps its storage, now dead).
Returns (destination, source after the move). -/
def CValue.moveCtor (that : CValue) : CValue × CValue :=
  ({ type := that.type, data := moveDataTo that.type that.data },
   { type := ValueType.Undefined, data := that.data })

/-- `Value::operator=(Value&&)`: release the destination's live variant,
then transfer exactly as the move constructor does.  Returns
(destination after assignment, source after the move). -/
def CValue.moveAssign (dst that : CValue) : CValue × CValue :=
  ({ type := that.type, data := moveDataTo that.type that.data },
   { type := ValueType.Undefined, data := that.data })

/-- Does `Value::releaseData` destroy anything for this tag? -/
def releaseWork : ValueType → Bool
  | ValueType.String => true
  | ValueType.Array => true
  | ValueType.Dict => true
  | _ => false

/-- Does `~Value()` release any owned storage?  (`releaseData` is called
only when the tag is not `Undefined`.) -/
def CValue.dtorReleases (v : CValue) : Bool :=
  if v.type ≠ ValueType.Undefined then releaseWork v.type else false

/-! ## measures used by the termination proofs -/

/-- Remaining input of the tokenizer: characters after the cursor plus one
for a still-live current character.  Strictly decreases whenever a non-Eof
token is produced. -/
def Tokenizer.muChar (t : Tokenizer) : Nat :=
  (t.chars.length - t.index) + (if t.chr = nulChar then 0 else 1)

/-- Remaining input of the parser: tokenizer remainder plus one for a
still-live current token. -/
def Tokenizer.muTok (t : Tokenizer) : Nat :=
  2 * t.muChar + (if t.token.kind = TokenKind.Eof then 0 else 1)

/-! # Theorems -/

/-! ## unfolding equations for the fueled parser -/

theorem parserFns_valueFn (fuel : Nat) : (parserFns fuel).valueFn = parseValue fuel := rfl

theorem parserFns_arrayFn (fuel : Nat) : (parserFns fuel).arrayFn = parseArray fuel := rfl

theorem parserFns_dictFn (fuel : Nat) : (parserFns fuel).dictFn = parseDict fuel := rfl

theorem parserFns_arrayLoopFn (fuel : Nat) :
    (parserFns fuel).arrayLoopFn = arrayLoop fuel := rfl

theorem parserFns_dictLoopFn (fuel : Nat) : (parserFns fuel).dictLoopFn = dictLoop fuel := rfl

theorem parseValue_zero (tk : Tokenizer) : parseValue 0 tk = .error PErr.fuelOut := rfl

theorem parseValue_succ (fuel : Nat) (tk : Tokenizer) :
    parseValue (fuel + 1) tk = parseValueBody (parserFns fuel) tk := rfl

theorem parseArray_zero (tk : Tokenizer) : parseArray 0 tk = .error PErr.fuelOut := rfl

theorem parseArray_succ (fuel : Nat) (tk : Tokenizer) :
    parseArray (fuel + 1) tk = parseArrayBody (parserFns fuel) tk := rfl

theorem parseDict_zero (tk : Tokenizer) : parseDict 0 tk = .error PErr.fuelOut := rfl

theorem parseDict_succ (fuel : Nat) (tk : Tokenizer) :
    parseDict (fuel + 1) tk = parseDictBody (parserFns fuel) tk := rfl

theorem arrayLoop_zero (acc : List GValue) (tk : Tokenizer) :
    arrayLoop 0 acc tk = .error PErr.fuelOut := rfl

theorem arrayLoop_succ (fuel : Nat) (acc : List GValue) (tk : Tokenizer) :
    arrayLoop (fuel + 1) acc tk = arrayLoopBody (parserFns fuel) acc tk := rfl

theorem dictLoop_zero (acc : List (String × GValue)) (tk : Tokenizer) :
    dictLoop 0 acc tk = .error PErr.fuelOut := rfl

theorem dictLoop_succ (fuel : Nat) (acc : List (String × GValue)) (tk : Tokenizer) :
    dictLoop (fuel + 1) acc tk = dictLoopBody (parserFns fuel) acc tk := rfl

/-! ## C1: the exception constructor and its `errorID` member -/

/-- C1: the claim says every `GclException` carries the `GclErrorID` value it
was constructed with.  The constructor as written initializes `span` and
`info` but never the `errorID` member, which keeps its indeterminate initial
contents (`uninitErrorID` in the model): the stored id is the junk value,
independent of the argument.  The concrete conjunct evaluates the
constructor at the duplicate-key arguments with junk contents `UnknownChar`
and observes that junk, not `KeyAlreadyDefined`, in the field. -/
theorem gclException_construct_drops_errorID :
    (∀ (a : GclErrorID) (sp : Span) (msg : String) (u : GclErrorID),
        (GclException.construct a sp msg u).errorID = u ∧
        (GclException.construct a sp msg u).span = sp ∧
        (GclException.construct a sp msg u).info = msg) ∧
    (GclException.construct GclErrorID.KeyAlreadyDefined {} "key `a` already defined"
        GclErrorID.UnknownChar).errorID = GclErrorID.UnknownChar ∧
    ¬ (GclException.construct GclErrorID.KeyAlreadyDefined {} "key `a` already defined"
        GclErrorID.UnknownChar).errorID = GclErrorID.KeyAlreadyDefined := by
  refine ⟨fun a sp msg u => ⟨rfl, rfl, rfl⟩, rfl, by decide⟩

/-! ## C2: what parseArray builds -/

/-- C2: the claim says `parse("[]")` yields an empty Array.  In the code,
`parseValue` on the `]` token falls through to `return true` with the output
left `Undefined`, so the element loop pushes one Undefined value:
`parse("[]")` succeeds with a ONE-element array.  `parse("[1,2,3]")` is as
claimed. -/
theorem parseArray_empty_and_list_eval :
    parse "[]".toList = Except.ok (true, GValue.arr [GValue.undefined]) ∧
    parse "[1,2,3]".toList =
      Except.ok (true, GValue.arr [GValue.int 1, GValue.int 2, GValue.int 3]) := by
  exact ⟨rfl, rfl⟩

/-! ## C3: parseValue on tokens that cannot start a value -/

/-- C3: the claim says `parseValue` returns false for Eof, for a non-keyword
identifier, and for any punctuation other than `{`/`[`.  The code does
return false (without consuming) for Eof and non-keyword identifiers, but
for `,` `}` `]` `:` it takes the `Punctuaction` branch, matches neither
inner test, and falls through to `return true` with the output untouched:
`parse(",")` "succeeds" with an Undefined value. -/
theorem parseValue_comma_returns_true :
    parse ",".toList = Except.ok (true, GValue.undefined) ∧
    parse "x".toList = Except.ok (false, GValue.undefined) ∧
    parse "".toList = Except.ok (false, GValue.undefined) := by
  exact ⟨rfl, rfl, rfl⟩

/-! ## C4: the duplicate-key diagnostic -/

/-- C4: the claim says a duplicate dict key raises a diagnostic of kind
`KeyAlreadyDefined`.  The parse does abort at the duplicate insert (no
silent overwrite) with a message naming the key, but the throw site passes
`GclErrorID::ExpectedPunctuaction` to the exception constructor, not
`KeyAlreadyDefined` (and the constructor drops the id anyway, see C1). -/
theorem parse_duplicate_key_eval :
    parse "{a:1,a:2}".toList =
      Except.error (PErr.gclError
        { errorID := GclErrorID.ExpectedPunctuaction,
          span := { beginLineNumber := 1, beginColumnNumber := 8,
                    endLineNumber := 1, endColumnNumber := 8 },
          info := "key `a` already defined" }) := by
  exact rfl

/-! ## C5: the typed accessors -/

/-- C5 counterexample: the claim says that for every constructed `Value`
exactly one of the six typed accessors succeeds.  For the value constructed
by `Value(nullptr)` (tag `Null`) none of the six succeeds. -/
theorem nullValue_no_accessor_succeeds :
    CValue.ofNullptr.succCount = 0 ∧ ¬ CValue.ofNullptr.succCount = 1 := by
  exact ⟨rfl, by decide⟩

/-- C5 (amended): each accessor succeeds exactly when the requested kind
equals the tag; hence for every value whose tag is one of the six accessor
kinds exactly one accessor succeeds, while for `Undefined` and `Null`
values none does. -/
theorem accessor_succeeds_iff_tag_matches :
    (∀ v : CValue,
      (exOk v.getBool = true ↔ v.type = ValueType.Bool) ∧
      (exOk v.getInt = true ↔ v.type = ValueType.Int) ∧
      (exOk v.getFloat = true ↔ v.type = ValueType.Float) ∧
      (exOk v.getString = true ↔ v.type = ValueType.String) ∧
      (exOk v.getArray = true ↔ v.type = ValueType.Array) ∧
      (exOk v.getDict = true ↔ v.type = ValueType.Dict)) ∧
    (∀ v : CValue,
      (v.type = ValueType.Bool ∨ v.type = ValueType.Int ∨ v.type = ValueType.Float ∨
       v.type = ValueType.String ∨ v.type = ValueType.Array ∨ v.type = ValueType.Dict) →
      v.succCount = 1) ∧
    (∀ v : CValue,
      (v.type = ValueType.Undefined ∨ v.type = ValueType.Null) → v.succCount = 0) := by
  refine ⟨fun v => ?_, fun v h => ?_, fun v h => ?_⟩
  · cases v with
    | mk ty d =>
      cases ty <;>
        simp [CValue.getBool, CValue.getInt, CValue.getFloat, CValue.getString,
          CValue.getArray, CValue.getDict, exOk]
  · cases v with
    | mk ty d =>
      rcases h with h | h | h | h | h | h <;> subst h <;>
        simp [CValue.succCount, CValue.getBool, CValue.getInt, CValue.getFloat,
          CValue.getString, CValue.getArray, CValue.getDict, exOk]
  · cases v with
    | mk ty d =>
      rcases h with h | h <;> subst h <;>
        simp [CValue.succCount, CValue.getBool, CValue.getInt, CValue.getFloat,
          CValue.getString, CValue.getArray, CValue.getDict, exOk]

/-- C5 witness: the amended theorem applied at the concrete `Value(true)`:
its tag is among the six accessor kinds and exactly one accessor succeeds. -/
theorem accessor_witness_bool : (CValue.ofBool true).succCount = 1 :=
  accessor_succeeds_iff_tag_matches.2.1 (CValue.ofBool true) (Or.inl rfl)

/-! ## C8: move construction and move assignment -/

/-- C8: moving from a well-formed value gives the destination the source's
tag and payload, leaves the source with tag `Undefined`, and the destructor
of the moved-from value then releases nothing. -/
theorem move_transfers_and_undefines_source :
    (∀ v : CValue, v.wf = true →
      (v.moveCtor).1 = { type := v.type, data := v.data } ∧
      (v.moveCtor).2.type = ValueType.Undefined ∧
      (v.moveCtor).2.dtorReleases = false) ∧
    (∀ (dst v : CValue), v.wf = true →
      (dst.moveAssign v).1 = { type := v.type, data := v.data } ∧
      (dst.moveAssign v).2.type = ValueType.Undefined ∧
      (dst.moveAssign v).2.dtorReleases = false) := by
  have hmain : ∀ v : CValue, v.wf = true →
      moveDataTo v.type v.data = v.data := by
    intro v hv
    cases v with
    | mk ty d =>
      cases ty <;> cases d <;>
        simp_all [CValue.wf, moveDataTo, CValueData.readB, CValueData.readI,
          CValueData.readF, CValueData.readStr, CValueData.readArr, CValueData.readDict]
  constructor
  · intro v hv
    refine ⟨?_, rfl, rfl⟩
    simp [CValue.moveCtor, hmain v hv]
  · intro dst v hv
    refine ⟨?_, rfl, rfl⟩
    simp [CValue.moveAssign, hmain v hv]

/-- C8 witness: the theorem applied to the concrete string value
`Value(String("abc"))`: the destination receives tag `String` and payload
`"abc"`, the source is left `Undefined` and destroying it releases
nothing. -/
theorem move_witness_string :
    ((CValue.ofString "abc").moveCtor).1 =
      { type := ValueType.String, data := CValueData.str "abc" } ∧
    ((CValue.ofString "abc").moveCtor).2.type = ValueType.Undefined ∧
    ((CValue.ofString "abc").moveCtor).2.dtorReleases = false :=
  move_transfers_and_undefines_source.1 (CValue.ofString "abc") rfl

/-! ## C6: integer literal lexing -/

/-- C6: digits accumulate as `value = value*base + digit` in `uintptr_t`
arithmetic (base 10, or 2 after `0b`, or 16 after `0x`), and a leading minus
applies two's-complement negation.  The five example literals of the claim
evaluate as stated; `-123` produces the two's-complement pattern of `-123`,
whose signed reinterpretation is `-123`. -/
theorem readNumber_literal_evals :
    parse "123".toList = Except.ok (true, GValue.int 123) ∧
    parse "-123".toList = Except.ok (true, GValue.int ((uintMod - 123) % uintMod)) ∧
    toSigned ((uintMod - 123) % uintMod) = -123 ∧
    parse "0x1F".toList = Except.ok (true, GValue.int 31) ∧
    parse "0b101".toList = Except.ok (true, GValue.int 5) ∧
    parse "0".toList = Except.ok (true, GValue.int 0) := by
  refine ⟨rfl, rfl, by decide, rfl, rfl, rfl⟩

/-! ## C7: dict keys are unique and key-sorted -/

theorem keysSorted_pair (k1 k2 : String) (v1 v2 : GValue) (rest : List (String × GValue)) :
    keysSorted ((k1, v1) :: (k2, v2) :: rest) =
      (strLt k1 k2 && keysSorted ((k2, v2) :: rest)) := rfl

theorem keysSorted_tail (p : String × GValue) (l : List (String × GValue))
    (h : keysSorted (p :: l) = true) : keysSorted l = true := by
  rcases p with ⟨k1, v1⟩
  cases l with
  | nil => rfl
  | cons q r =>
    rcases q with ⟨k2, v2⟩
    rw [keysSorted_pair, Bool.and_eq_true] at h
    exact h.2

theorem dictInsert_mem :
    ∀ (l : List (String × GValue)) (k : String) (v : GValue) (l2 : List (String × GValue))
      (x : String × GValue), dictInsert l k v = some l2 → x ∈ l2 → x = (k, v) ∨ x ∈ l := by
  intro l
  induction l with
  | nil =>
    intro k v l2 x h hx
    simp only [dictInsert, Option.some.injEq] at h
    subst h
    simp only [List.mem_singleton] at hx
    exact Or.inl hx
  | cons p rest ih =>
    intro k v l2 x h hx
    rcases p with ⟨k1, v1⟩
    simp only [dictInsert] at h
    by_cases h1 : strLt k k1 = true
    · rw [if_pos h1] at h
      simp only [Option.some.injEq] at h
      subst h
      simp only [List.mem_cons] at hx
      rcases hx with hx | hx | hx
      · exact Or.inl hx
      · exact Or.inr (by simp [hx])
      · exact Or.inr (by simp [hx])
    · rw [if_neg h1] at h
      by_cases h2 : strLt k1 k = true
      · rw [if_pos h2] at h
        cases hrec : dictInsert rest k v with
        | none => rw [hrec] at h; cases h
        | some rest2 =>
          rw [hrec] at h
          simp only [Option.some.injEq] at h
          subst h
          simp only [List.mem_cons] at hx
          rcases hx with hx | hx
          · exact Or.inr (by simp [hx])
          · rcases ih k v rest2 x hrec hx with hx2 | hx2
            · exact Or.inl hx2
            · exact Or.inr (by simp [hx2])
      · rw [if_neg h2] at h
        cases h

theorem dictInsert_head :
    ∀ (l : List (String × GValue)) (k : String) (v : GValue) (l2 : List (String × GValue)),
      dictInsert l k v = some l2 →
      ∃ h2 t2, l2 = h2 :: t2 ∧ (h2 = (k, v) ∨ ∃ t0, l = h2 :: t0) := by
  intro l
  induction l with
  | nil =>
    intro k v l2 h
    simp only [dictInsert, Option.some.injEq] at h
    exact ⟨(k, v), [], h.symm, Or.inl rfl⟩
  | cons p rest ih =>
    intro k v l2 h
    rcases p with ⟨k1, v1⟩
    simp only [dictInsert] at h
    by_cases h1 : strLt k k1 = true
    · rw [if_pos h1] at h
      simp only [Option.some.injEq] at h
      exact ⟨(k, v), (k1, v1) :: rest, h.symm, Or.inl rfl⟩
    · rw [if_neg h1] at h
      by_cases h2 : strLt k1 k = true
      · rw [if_pos h2] at h
        cases hrec : dictInsert rest k v with
        | none => rw [hrec] at h; cases h
        | some rest2 =>
          rw [hrec] at h
          simp only [Option.some.injEq] at h
          exact ⟨(k1, v1), rest2, h.symm, Or.inr ⟨rest, rfl⟩⟩
      · rw [if_neg h2] at h
        cases h

theorem dictInsert_sorted :
    ∀ (l : List (String × GValue)) (k : String) (v : GValue) (l2 : List (String × GValue)),
      keysSorted l = true → dictInsert l k v = some l2 → keysSorted l2 = true := by
  intro l
  induction l with
  | nil =>
    intro k v l2 _ h
    simp only [dictInsert, Option.some.injEq] at h
    subst h
    rfl
  | cons p rest ih =>
    intro k v l2 hs h
    rcases p with ⟨k1, v1⟩
    simp only [dictInsert] at h
    by_cases h1 : strLt k k1 = true
    · rw [if_pos h1] at h
      simp only [Option.some.injEq] at h
      subst h
      rw [keysSorted_pair, Bool.and_eq_true]
      exact ⟨h1, hs⟩
    · rw [if_neg h1] at h
      by_cases h2 : strLt k1 k = true
      · rw [if_pos h2] at h
        cases hrec : dictInsert rest k v with
        | none => rw [hrec] at h; cases h
        | some rest2 =>
          rw [hrec] at h
          simp only [Option.some.injEq] at h
          subst h
          have hsrest : keysSorted rest = true := keysSorted_tail _ _ hs
          have hs2 : keysSorted rest2 = true := ih k v rest2 hsrest hrec
          rcases dictInsert_head rest k v rest2 hrec with ⟨h2e, t2, ht, hhead⟩
          subst ht
          rcases h2e with ⟨kh, vh⟩
          rw [keysSorted_pair, Bool.and_eq_true]
          refine ⟨?_, hs2⟩
          rcases hhead with hh | ⟨t0, ht0⟩
          · have : kh = k := congrArg Prod.fst hh
            rw [this]
            exact h2
          · subst ht0
            rw [keysSorted_pair, Bool.and_eq_true] at hs
            exact hs.1
      · rw [if_neg h2] at h
        cases h

theorem entriesOk_mem :
    ∀ l : List (String × GValue),
      entriesOk l = true ↔ ∀ x ∈ l, (x.2).dictsOk = true := by
  intro l
  induction l with
  | nil => simp [entriesOk]
  | cons p rest ih =>
    rcases p with ⟨kp, vp⟩
    simp only [entriesOk, Bool.and_eq_true, ih, List.mem_cons]
    constructor
    · rintro ⟨h1, h2⟩ x (hx | hx)
      · rw [hx]; exact h1
      · exact h2 x hx
    · intro h
      exact ⟨h (kp, vp) (Or.inl rfl), fun x hx => h x (Or.inr hx)⟩

theorem dictInsert_entriesOk (l : List (String × GValue)) (k : String) (v : GValue)
    (l2 : List (String × GValue)) (hl : entriesOk l = true) (hv : v.dictsOk = true)
    (h : dictInsert l k v = some l2) : entriesOk l2 = true := by
  rw [entriesOk_mem] at hl ⊢
  intro x hx
  rcases dictInsert_mem l k v l2 x h hx with hx2 | hx2
  · rw [hx2]; exact hv
  · exact hl x hx2

theorem arrOk_append (l : List GValue) (v : GValue) :
    arrOk (l ++ [v]) = (arrOk l && v.dictsOk) := by
  induction l with
  | nil => simp [arrOk, GValue.dictsOk]
  | cons x xs ih =>
    simp only [List.cons_append, arrOk, List.append_eq, ih, Bool.and_assoc]

/-- All five parser functions preserve and establish the dict-ordering
invariant, by induction on the fuel. -/
theorem parser_dictsOk :
    ∀ fuel : Nat,
      (∀ tk b v tk2, parseValue fuel tk = .ok (b, v, tk2) → v.dictsOk = true) ∧
      (∀ tk vs tk2, parseArray fuel tk = .ok (vs, tk2) → arrOk vs = true) ∧
      (∀ tk es tk2, parseDict fuel tk = .ok (es, tk2) →
          keysSorted es = true ∧ entriesOk es = true) ∧
      (∀ acc tk vs tk2, arrOk acc = true → arrayLoop fuel acc tk = .ok (vs, tk2) →
          arrOk vs = true) ∧
      (∀ acc tk es tk2, keysSorted acc = true → entriesOk acc = true →
          dictLoop fuel acc tk = .ok (es, tk2) →
          keysSorted es = true ∧ entriesOk es = true) := by
  intro fuel
  induction fuel with
  | zero =>
    refine ⟨?_, ?_, ?_, ?_, ?_⟩
    · intro tk b v tk2 h; rw [parseValue_zero] at h; cases h
    · intro tk vs tk2 h; rw [parseArray_zero] at h; cases h
    · intro tk es tk2 h; rw [parseDict_zero] at h; cases h
    · intro acc tk vs tk2 _ h; rw [arrayLoop_zero] at h; cases h
    · intro acc tk es tk2 _ _ h; rw [dictLoop_zero] at h; cases h
  | succ fuel ih =>
    obtain ⟨ihv, iha, ihd, ihal, ihdl⟩ := ih
    refine ⟨?_, ?_, ?_, ?_, ?_⟩
    · -- parseValue
      intro tk b v tk2 h
      rw [parseValue_succ] at h
      unfold parseValueBody at h
      rw [parserFns_dictFn, parserFns_arrayFn] at h
      split at h
      · -- Punctuaction
        split at h
        · -- Lbrace
          cases hd : parseDict fuel tk with
          | error e => rw [hd] at h; cases h
          | ok r =>
            rcases r with ⟨entries, tkx⟩
            rw [hd] at h
            injection h with h1
            injection h1 with hb h1
            injection h1 with hv2 htk
            subst hv2
            have := ihd tk entries tkx hd
            simp [GValue.dictsOk, this.1, this.2]
        · split at h
          · -- Lsqb
            cases ha : parseArray fuel tk with
            | error e => rw [ha] at h; cases h
            | ok r =>
              rcases r with ⟨elems, tkx⟩
              rw [ha] at h
              injection h with h1
              injection h1 with hb h1
              injection h1 with hv2 htk
              subst hv2
              have := iha tk elems tkx ha
              simp [GValue.dictsOk, this]
          · -- fall-through: output untouched (Undefined)
            injection h with h1
            injection h1 with hb h1
            injection h1 with hv2 htk
            subst hv2
            rfl
      · -- String
        cases hadv : tk.advance with
        | error e => rw [hadv] at h; cases h
        | ok r =>
          rcases r with ⟨tkx, bx⟩
          rw [hadv] at h
          injection h with h1
          injection h1 with hb h1
          injection h1 with hv2 htk
          subst hv2
          rfl
      · -- Int
        cases hadv : tk.advance with
        | error e => rw [hadv] at h; cases h
        | ok r =>
          rcases r with ⟨tkx, bx⟩
          rw [hadv] at h
          injection h with h1
          injection h1 with hb h1
          injection h1 with hv2 htk
          subst hv2
          rfl
      · -- Float
        cases hadv : tk.advance with
        | error e => rw [hadv] at h; cases h
        | ok r =>
          rcases r with ⟨tkx, bx⟩
          rw [hadv] at h
          injection h with h1
          injection h1 with hb h1
          injection h1 with hv2 htk
          subst hv2
          rfl
      · -- Identifier
        split at h
        · cases hadv : tk.advance with
          | error e => rw [hadv] at h; cases h
          | ok r =>
            rcases r with ⟨tkx, bx⟩
            rw [hadv] at h
            injection h with h1
            injection h1 with hb h1
            injection h1 with hv2 htk
            subst hv2
            rfl
        · split at h
          · cases hadv : tk.advance with
            | error e => rw [hadv] at h; cases h
            | ok r =>
              rcases r with ⟨tkx, bx⟩
              rw [hadv] at h
              injection h with h1
              injection h1 with hb h1
              injection h1 with hv2 htk
              subst hv2
              rfl
          · split at h
            · cases hadv : tk.advance with
              | error e => rw [hadv] at h; cases h
              | ok r =>
                rcases r with ⟨tkx, bx⟩
                rw [hadv] at h
                injection h with h1
                injection h1 with hb h1
                injection h1 with hv2 htk
                subst hv2
                rfl
            · injection h with h1
              injection h1 with hb h1
              injection h1 with hv2 htk
              subst hv2
              rfl
      · -- Eof
        injection h with h1
        injection h1 with hb h1
        injection h1 with hv2 htk
        subst hv2
        rfl
    · -- parseArray
      intro tk vs tk2 h
      rw [parseArray_succ] at h
      unfold parseArrayBody at h
      rw [parserFns_arrayLoopFn] at h
      cases hadv : tk.advance with
      | error e => rw [hadv] at h; cases h
      | ok r =>
        rcases r with ⟨tk1, b1⟩
        rw [hadv] at h
        simp only [] at h
        cases hl : arrayLoop fuel [] tk1 with
        | error e => rw [hl] at h; cases h
        | ok r2 =>
          rcases r2 with ⟨elems, tkx⟩
          rw [hl] at h
          simp only [] at h
          have helems : arrOk elems = true := ihal [] tk1 elems tkx rfl hl
          split at h
          · cases hadv2 : tkx.advance with
            | error e => rw [hadv2] at h; cases h
            | ok r3 =>
              rcases r3 with ⟨tky, by2⟩
              rw [hadv2] at h
              injection h with h1
              injection h1 with hvs htk
              subst hvs
              exact helems
          · cases h
    · -- parseDict
      intro tk es tk2 h
      rw [parseDict_succ] at h
      unfold parseDictBody at h
      rw [parserFns_dictLoopFn] at h
      cases hadv : tk.advance with
      | error e => rw [hadv] at h; cases h
      | ok r =>
        rcases r with ⟨tk1, b1⟩
        rw [hadv] at h
        simp only [] at h
        cases hl : dictLoop fuel [] tk1 with
        | error e => rw [hl] at h; cases h
        | ok r2 =>
          rcases r2 with ⟨entries, tkx⟩
          rw [hl] at h
          simp only [] at h
          have hentries := ihdl [] tk1 entries tkx rfl rfl hl
          split at h
          · cases hadv2 : tkx.advance with
            | error e => rw [hadv2] at h; cases h
            | ok r3 =>
              rcases r3 with ⟨tky, by2⟩
              rw [hadv2] at h
              injection h with h1
              injection h1 with hes htk
              subst hes
              exact hentries
          · cases h
    · -- arrayLoop
      intro acc tk vs tk2 hacc h
      rw [arrayLoop_succ] at h
      unfold arrayLoopBody at h
      rw [parserFns_valueFn, parserFns_arrayLoopFn] at h
      cases hpv : parseValue fuel tk with
      | error e => rw [hpv] at h; cases h
      | ok r =>
        rcases r with ⟨okb, v, tk1⟩
        rw [hpv] at h
        simp only [] at h
        have hvok : v.dictsOk = true := ihv tk okb v tk1 hpv
        have hacc2 : arrOk (acc ++ [v]) = true := by
          rw [arrOk_append, Bool.and_eq_true]
          exact ⟨hacc, hvok⟩
        split at h
        · cases h
        · split at h
          · cases hadv : tk1.advance with
            | error e => rw [hadv] at h; cases h
            | ok r2 =>
              rcases r2 with ⟨tkx, bx⟩
              rw [hadv] at h
              simp only [] at h
              exact ihal (acc ++ [v]) tkx vs tk2 hacc2 h
          · split at h
            · injection h with h1
              injection h1 with hvs htk
              subst hvs
              exact hacc2
            · cases h
    · -- dictLoop
      intro acc tk es tk2 hs he h
      rw [dictLoop_succ] at h
      unfold dictLoopBody at h
      rw [parserFns_valueFn, parserFns_dictLoopFn] at h
      split at h
      · -- not an identifier: break
        injection h with h1
        injection h1 with hes htk
        subst hes
        exact ⟨hs, he⟩
      · cases hadv : tk.advance with
        | error e => rw [hadv] at h; cases h
        | ok r =>
          rcases r with ⟨tk1, b1⟩
          rw [hadv] at h
          simp only [] at h
          split at h
          · cases h
          · cases hadv2 : tk1.advance with
            | error e => rw [hadv2] at h; cases h
            | ok r2 =>
              rcases r2 with ⟨tkx, bx⟩
              rw [hadv2] at h
              simp only [] at h
              cases hpv : parseValue fuel tkx with
              | error e => rw [hpv] at h; cases h
              | ok r3 =>
                rcases r3 with ⟨okb, v, tk3⟩
                rw [hpv] at h
                simp only [] at h
                have hvok : v.dictsOk = true := ihv tkx okb v tk3 hpv
                split at h
                · cases h
                · cases hins : dictInsert acc tk.token.getIdent v with
                  | none => rw [hins] at h; cases h
                  | some acc2 =>
                    rw [hins] at h
                    simp only [] at h
                    have hs2 : keysSorted acc2 = true :=
                      dictInsert_sorted acc tk.token.getIdent v acc2 hs hins
                    have he2 : entriesOk acc2 = true :=
                      dictInsert_entriesOk acc tk.token.getIdent v acc2 he hvok hins
                    split at h
                    · cases hadv3 : tk3.advance with
                      | error e => rw [hadv3] at h; cases h
                      | ok r4 =>
                        rcases r4 with ⟨tk4, b4⟩
                        rw [hadv3] at h
                        simp only [] at h
                        exact ihdl acc2 tk4 es tk2 hs2 he2 h
                    · split at h
                      · injection h with h1
                        injection h1 with hes htk
                        subst hes
                        exact ⟨hs2, he2⟩
                      · cases h

/-- C7: every dict in a successfully parsed value tree is key-sorted (hence
key-unique); `parse("{}")` yields an empty Dict and `parse("{b:2,a:1}")` a
Dict whose key-ordered traversal yields `a` before `b`. -/
theorem parse_dicts_key_sorted :
    (∀ (chars : List Char) (b : Bool) (v : GValue),
        parse chars = .ok (b, v) → v.dictsOk = true) ∧
    parse "{}".toList = Except.ok (true, GValue.dict []) ∧
    parse "{b:2,a:1}".toList =
      Except.ok (true, GValue.dict [("a", GValue.int 1), ("b", GValue.int 2)]) ∧
    keysSorted [("a", GValue.int 1), ("b", GValue.int 2)] = true := by
  refine ⟨?_, rfl, rfl, rfl⟩
  intro chars b v h
  unfold parse at h
  cases hadv : (Tokenizer.setText chars).advance with
  | error e => rw [hadv] at h; cases h
  | ok r =>
    rcases r with ⟨tk, b0⟩
    rw [hadv] at h
    simp only [] at h
    cases hpv : parseValue (parserFuel chars) tk with
    | error e => rw [hpv] at h; cases h
    | ok r2 =>
      rcases r2 with ⟨okb, v2, tkx⟩
      rw [hpv] at h
      injection h with h1
      injection h1 with hb hv2
      subst hv2
      exact (parser_dictsOk (parserFuel chars)).1 tk okb v2 tkx hpv

/-- C7 witness: the invariant applied to the concrete parse of
`{b:2,a:1}`. -/
theorem parse_dicts_key_sorted_witness :
    (GValue.dict [("a", GValue.int 1), ("b", GValue.int 2)]).dictsOk = true :=
  parse_dicts_key_sorted.1 "{b:2,a:1}".toList true
    (GValue.dict [("a", GValue.int 1), ("b", GValue.int 2)]) rfl

/-! ## tokenizer cursor lemmas (toward C9 and C10) -/

theorem advanceChar_chars (t : Tokenizer) : (t.advanceChar).1.chars = t.chars := by
  unfold Tokenizer.advanceChar
  split
  · rfl
  · split <;> rfl

theorem advanceChar_token (t : Tokenizer) : (t.advanceChar).1.token = t.token := by
  unfold Tokenizer.advanceChar
  split
  · rfl
  · split <;> rfl

theorem advanceChar_true_facts (t : Tokenizer) (h : (t.advanceChar).2 = true) :
    (t.advanceChar).1.index = t.index + 1 ∧ t.index + 1 < t.chars.length ∧
    (t.advanceChar).1.chr = t.chars.getD (t.index + 1) nulChar := by
  unfold Tokenizer.advanceChar at h ⊢
  by_cases hg : t.index + 1 ≥ t.chars.length
  · rw [if_pos hg] at h
    cases h
  · rw [if_neg hg] at h ⊢
    have hlt : t.index + 1 < t.chars.length := by omega
    by_cases hn : t.chars.getD (t.index + 1) nulChar = '\n'
    · rw [if_pos hn]
      exact ⟨rfl, hlt, rfl⟩
    · rw [if_neg hn]
      exact ⟨rfl, hlt, rfl⟩

theorem advanceChar_false_facts (t : Tokenizer) (h : (t.advanceChar).2 = false) :
    (t.advanceChar).1.index = t.index ∧ (t.advanceChar).1.chr = nulChar ∧
    t.chars.length ≤ t.index + 1 := by
  unfold Tokenizer.advanceChar at h ⊢
  by_cases hg : t.index + 1 ≥ t.chars.length
  · rw [if_pos hg]
    exact ⟨rfl, rfl, by omega⟩
  · rw [if_neg hg] at h
    by_cases hn : t.chars.getD (t.index + 1) nulChar = '\n'
    · rw [if_pos hn] at h
      cases h
    · rw [if_neg hn] at h
      cases h

theorem advanceChar_index_ge (t : Tokenizer) : t.index ≤ (t.advanceChar).1.index := by
  unfold Tokenizer.advanceChar
  by_cases hg : t.index + 1 ≥ t.chars.length
  · rw [if_pos hg]
  · rw [if_neg hg]
    by_cases hn : t.chars.getD (t.index + 1) nulChar = '\n'
    · rw [if_pos hn]
      exact Nat.le_succ _
    · rw [if_neg hn]
      exact Nat.le_succ _

theorem advanceChar_muChar_le (t : Tokenizer) : (t.advanceChar).1.muChar ≤ t.muChar := by
  unfold Tokenizer.advanceChar
  by_cases hg : t.index + 1 ≥ t.chars.length
  · rw [if_pos hg]
    unfold Tokenizer.muChar
    simp only []
    split_ifs <;> omega
  · rw [if_neg hg]
    by_cases hn : t.chars.getD (t.index + 1) nulChar = '\n'
    · rw [if_pos hn]
      unfold Tokenizer.muChar
      simp only []
      split_ifs <;> omega
    · rw [if_neg hn]
      unfold Tokenizer.muChar
      simp only []
      split_ifs <;> omega

theorem advanceChar_muChar_lt (t : Tokenizer) (h : t.chr ≠ nulChar) :
    (t.advanceChar).1.muChar < t.muChar := by
  unfold Tokenizer.advanceChar
  by_cases hg : t.index + 1 ≥ t.chars.length
  · rw [if_pos hg]
    unfold Tokenizer.muChar
    simp only []
    split_ifs <;> omega
  · rw [if_neg hg]
    by_cases hn : t.chars.getD (t.index + 1) nulChar = '\n'
    · rw [if_pos hn]
      unfold Tokenizer.muChar
      simp only []
      split_ifs <;> omega
    · rw [if_neg hn]
      unfold Tokenizer.muChar
      simp only []
      split_ifs <;> omega

theorem muChar_lt_charFuel (t : Tokenizer) : t.muChar < t.charFuel := by
  unfold Tokenizer.muChar Tokenizer.charFuel
  split <;> omega

theorem skipWhitespace_ok :
    ∀ (f : Nat) (t : Tokenizer), t.muChar < f →
      ∃ t2, skipWhitespace f t = .ok t2 ∧ t2.chars = t.chars ∧ t2.muChar ≤ t.muChar := by
  intro f
  induction f with
  | zero => intro t h; omega
  | succ f ih =>
    intro t h
    simp only [skipWhitespace]
    split
    · rename_i hws
      have hne : t.chr ≠ nulChar := by
        rcases hws with h1 | h1 | h1 <;> rw [h1] <;> decide
      have hlt := advanceChar_muChar_lt t hne
      obtain ⟨t2, ht2, hc, hm⟩ := ih (t.advanceChar).1 (by omega)
      refine ⟨t2, ht2, ?_, ?_⟩
      · rw [hc, advanceChar_chars]
      · omega
    · exact ⟨t, rfl, rfl, le_refl _⟩

theorem skipCommentLoop_ok :
    ∀ (f : Nat) (t : Tokenizer), t.chars.length - t.index < f →
      ∃ t2, skipCommentLoop f t = .ok t2 ∧ t2.chars = t.chars ∧ t2.muChar ≤ t.muChar := by
  intro f
  induction f with
  | zero => intro t h; omega
  | succ f ih =>
    intro t h
    simp only [skipCommentLoop]
    split
    · cases hac : t.advanceChar with
    | mk ta ok =>
      cases ok with
      | true =>
        have hfacts := advanceChar_true_facts t (by rw [hac])
        rw [hac] at hfacts
        simp only [] at hfacts
        have hch : ta.chars = t.chars := by
          have := advanceChar_chars t
          rw [hac] at this
          exact this
        have hmu : ta.muChar ≤ t.muChar := by
          have := advanceChar_muChar_le t
          rw [hac] at this
          exact this
        obtain ⟨t2, ht2, hc, hm⟩ := ih ta (by rw [hch]; omega)
        exact ⟨t2, ht2, by rw [hc, hch], by omega⟩
      | false =>
        have hch : ta.chars = t.chars := by
          have := advanceChar_chars t
          rw [hac] at this
          exact this
        have hmu : ta.muChar ≤ t.muChar := by
          have := advanceChar_muChar_le t
          rw [hac] at this
          exact this
        exact ⟨ta, rfl, hch, hmu⟩
    · exact ⟨t, rfl, rfl, le_refl _⟩

theorem skipComment_ok (t : Tokenizer) :
    ∃ t2, skipComment t = .ok t2 ∧ t2.chars = t.chars ∧
      t2.muChar ≤ (t.advanceChar).1.muChar := by
  unfold skipComment
  have hch := advanceChar_chars t
  have hb : (t.advanceChar).1.chars.length - (t.advanceChar).1.index < t.charFuel := by
    unfold Tokenizer.charFuel
    rw [hch]
    omega
  obtain ⟨t2, ht2, hc, hm⟩ := skipCommentLoop_ok t.charFuel (t.advanceChar).1 hb
  exact ⟨t2, ht2, by rw [hc, hch], hm⟩

theorem isAlpha_ne_nul (c : Char) (h : isAlpha c = true) : c ≠ nulChar := by
  intro hc
  rw [hc] at h
  exact absurd h (by decide)

theorem isDigitB_ne_nul (c : Char) (base : Nat) (h : isDigitB c base = true) :
    c ≠ nulChar := by
  intro hc
  rw [hc] at h
  unfold isDigitB at h
  split at h <;> exact absurd h (by decide)

theorem isAlnum_ne_nul (c : Char) (h : isAlnum c = true) : c ≠ nulChar := by
  intro hc
  rw [hc] at h
  exact absurd h (by decide)

theorem punctOf_ne_nul (c : Char) (p : Punctuaction) (h : punctOf c = some p) :
    c ≠ nulChar := by
  intro hc
  rw [hc] at h
  have hn : punctOf nulChar = none := by decide
  rw [hn] at h
  cases h

theorem setTok_chars (t : Tokenizer) (k : TokenKind) (d : TokenData) :
    (t.setTok k d).chars = t.chars := rfl

theorem setTok_muChar (t : Tokenizer) (k : TokenKind) (d : TokenData) :
    (t.setTok k d).muChar = t.muChar := rfl

theorem setTok_kind (t : Tokenizer) (k : TokenKind) (d : TokenData) :
    (t.setTok k d).token.kind = k := rfl

theorem setIntToken_chars (t : Tokenizer) (v : Nat) : (setIntToken t v).chars = t.chars := rfl

theorem setIntToken_muChar (t : Tokenizer) (v : Nat) :
    (setIntToken t v).muChar = t.muChar := rfl

theorem setIntToken_kind (t : Tokenizer) (v : Nat) :
    (setIntToken t v).token.kind = TokenKind.Int := rfl

theorem identLoop_ok :
    ∀ (f : Nat) (t : Tokenizer) (acc : String), t.chars.length - t.index < f →
      ∃ t2 s, identLoop f t acc = .ok (t2, s) ∧ t2.chars = t.chars ∧
        t2.muChar ≤ t.muChar ∧ (t.chr ≠ nulChar → t2.muChar < t.muChar) := by
  intro f
  induction f with
  | zero => intro t acc h; omega
  | succ f ih =>
    intro t acc h
    simp only [identLoop]
    cases hac : t.advanceChar with
    | mk ta ok =>
      have hch : ta.chars = t.chars := by
        have := advanceChar_chars t; rw [hac] at this; exact this
      have hmu : ta.muChar ≤ t.muChar := by
        have := advanceChar_muChar_le t; rw [hac] at this; exact this
      have hstrict : t.chr ≠ nulChar → ta.muChar < t.muChar := by
        intro hne
        have := advanceChar_muChar_lt t hne; rw [hac] at this; exact this
      simp only []
      split
      · rename_i hcond
        have hok : ok = true := hcond.1
        have hidx := advanceChar_true_facts t (by rw [hac, hok])
        rw [hac] at hidx
        simp only [] at hidx
        obtain ⟨hix1, hix2, _⟩ := hidx
        obtain ⟨t2, s2, ht2, hc2, hm2, _⟩ := ih ta (acc.push ta.chr) (by rw [hch]; omega)
        exact ⟨t2, s2, ht2, by rw [hc2, hch], by omega, fun hne => by
          have := hstrict hne; omega⟩
      · exact ⟨ta, acc, rfl, hch, hmu, hstrict⟩

theorem numLoop_ok :
    ∀ (f : Nat) (t : Tokenizer) (base value : Nat), t.chars.length - t.index < f →
      ∃ t2 v2, numLoop f t base value = .ok (t2, v2) ∧ t2.chars = t.chars ∧
        t2.muChar ≤ t.muChar ∧ (t.chr ≠ nulChar → t2.muChar < t.muChar) := by
  intro f
  induction f with
  | zero => intro t base value h; omega
  | succ f ih =>
    intro t base value h
    simp only [numLoop]
    cases hac : t.advanceChar with
    | mk ta ok =>
      have hch : ta.chars = t.chars := by
        have := advanceChar_chars t; rw [hac] at this; exact this
      have hmu : ta.muChar ≤ t.muChar := by
        have := advanceChar_muChar_le t; rw [hac] at this; exact this
      have hstrict : t.chr ≠ nulChar → ta.muChar < t.muChar := by
        intro hne
        have := advanceChar_muChar_lt t hne; rw [hac] at this; exact this
      simp only []
      split
      · rename_i hcond
        have hok : ok = true := hcond.1
        have hidx := advanceChar_true_facts t (by rw [hac, hok])
        rw [hac] at hidx
        simp only [] at hidx
        obtain ⟨hix1, hix2, _⟩ := hidx
        obtain ⟨t2, v2, ht2, hc2, hm2, _⟩ :=
          ih ta base ((value * base % uintMod + uintNat (charToDigit ta.chr base)) % uintMod)
            (by rw [hch]; omega)
        exact ⟨t2, v2, ht2, by rw [hc2, hch], by omega, fun hne => by
          have := hstrict hne; omega⟩
      · exact ⟨ta, value, rfl, hch, hmu, hstrict⟩

theorem alnumSkip_ok :
    ∀ (f : Nat) (t : Tokenizer), t.muChar < f →
      ∃ t2, alnumSkip f t = .ok t2 ∧ t2.chars = t.chars ∧ t2.muChar ≤ t.muChar := by
  intro f
  induction f with
  | zero => intro t h; omega
  | succ f ih =>
    intro t h
    simp only [alnumSkip]
    split
    · rename_i halnum
      have hne : t.chr ≠ nulChar := isAlnum_ne_nul t.chr halnum
      have hlt := advanceChar_muChar_lt t hne
      obtain ⟨t2, ht2, hc, hm⟩ := ih (t.advanceChar).1 (by omega)
      exact ⟨t2, ht2, by rw [hc, advanceChar_chars], by omega⟩
    · exact ⟨t, rfl, rfl, le_refl _⟩

theorem strLoop_ok :
    ∀ (f : Nat) (t : Tokenizer) (acc : String), t.chars.length - t.index < f →
      (∃ t2 s, strLoop f t acc = .ok (t2, s) ∧ t2.chars = t.chars ∧
        t2.muChar ≤ t.muChar ∧ (t.chr ≠ nulChar → t2.muChar < t.muChar)) ∨
      (∃ e, strLoop f t acc = .error (PErr.gclError e)) := by
  intro f
  induction f with
  | zero => intro t acc h; omega
  | succ f ih =>
    intro t acc h
    simp only [strLoop]
    cases hac : t.advanceChar with
    | mk ta ok =>
      have hch : ta.chars = t.chars := by
        have := advanceChar_chars t; rw [hac] at this; exact this
      have hmu : ta.muChar ≤ t.muChar := by
        have := advanceChar_muChar_le t; rw [hac] at this; exact this
      have hstrict : t.chr ≠ nulChar → ta.muChar < t.muChar := by
        intro hne
        have := advanceChar_muChar_lt t hne; rw [hac] at this; exact this
      simp only []
      split
      · rename_i hcond
        have hok : ok = true := hcond.1
        have hidx := advanceChar_true_facts t (by rw [hac, hok])
        rw [hac] at hidx
        simp only [] at hidx
        obtain ⟨hix1, hix2, _⟩ := hidx
        split
        · exact Or.inr ⟨_, rfl⟩
        · split
          · -- escape branch
            have hchb : (ta.advanceChar).1.chars = ta.chars := advanceChar_chars ta
            have hmub : (ta.advanceChar).1.muChar ≤ ta.muChar := advanceChar_muChar_le ta
            have hixb : ta.index ≤ (ta.advanceChar).1.index := advanceChar_index_ge ta
            cases hec : escapeChar (ta.advanceChar).1.chr with
            | some c =>
              rcases ih (ta.advanceChar).1 (acc.push c)
                  (by rw [hchb, hch]; omega) with
                ⟨t2, s2, ht2, hc2, hm2, _⟩ | ⟨e, herr⟩
              · exact Or.inl ⟨t2, s2, ht2, by rw [hc2, hchb, hch], by omega,
                  fun hne => by have := hstrict hne; omega⟩
              · exact Or.inr ⟨e, herr⟩
            | none => exact Or.inr ⟨_, rfl⟩
          · -- plain character
            rcases ih ta (acc.push ta.chr) (by rw [hch]; omega) with
              ⟨t2, s2, ht2, hc2, hm2, _⟩ | ⟨e, herr⟩
            · exact Or.inl ⟨t2, s2, ht2, by rw [hc2, hch], by omega,
                fun hne => by have := hstrict hne; omega⟩
            · exact Or.inr ⟨e, herr⟩
      · exact Or.inl ⟨ta, acc, rfl, hch, hmu, hstrict⟩

theorem commentLoop_ok :
    ∀ (f : Nat) (t : Tokenizer), t.muChar < f →
      ∃ t2, commentLoop f t = .ok t2 ∧ t2.chars = t.chars ∧ t2.muChar ≤ t.muChar := by
  intro f
  induction f with
  | zero => intro t h; omega
  | succ f ih =>
    intro t h
    simp only [commentLoop]
    split
    · rename_i hhash
      have hne : t.chr ≠ nulChar := by rw [hhash]; decide
      have hstrict := advanceChar_muChar_lt t hne
      obtain ⟨t2, ht2, hc2, hm2⟩ := skipComment_ok t
      rw [ht2]
      simp only []
      obtain ⟨t3, ht3, hc3, hm3⟩ := skipWhitespace_ok t2.charFuel t2 (muChar_lt_charFuel t2)
      rw [ht3]
      simp only []
      obtain ⟨t4, ht4, hc4, hm4⟩ := ih t3 (by omega)
      exact ⟨t4, ht4, by rw [hc4, hc3, hc2], by omega⟩
    · exact ⟨t, rfl, rfl, le_refl _⟩

/-! ## read-method and advance specifications (toward C10) -/

theorem readIdentifier_spec (t : Tokenizer) :
    ∃ r : Tokenizer × Bool, readIdentifier t = .ok r ∧ r.1.chars = t.chars ∧
      r.1.muChar ≤ t.muChar ∧ (r.2 = false → r.1 = t) ∧
      (r.2 = true → r.1.token.kind ≠ TokenKind.Eof ∧ r.1.muChar < t.muChar) := by
  unfold readIdentifier
  by_cases ha : isAlpha t.chr = true
  · rw [if_pos ha]
    have hb : t.chars.length - t.index < t.charFuel := by
      unfold Tokenizer.charFuel; omega
    obtain ⟨t2, s, ht2, hc, hm, hstr⟩ := identLoop_ok t.charFuel t (String.singleton t.chr) hb
    rw [ht2]
    simp only []
    refine ⟨_, rfl, ?_, ?_, ?_, ?_⟩
    · rw [setTok_chars]; exact hc
    · rw [setTok_muChar]; exact hm
    · intro hfalse; simp at hfalse
    · intro _
      refine ⟨?_, ?_⟩
      · rw [setTok_kind]; decide
      · rw [setTok_muChar]; exact hstr (isAlpha_ne_nul t.chr ha)
  · rw [if_neg ha]
    exact ⟨(t, false), rfl, rfl, le_refl _, fun _ => rfl, fun h => by cases h⟩

theorem readPunctuaction_spec (t : Tokenizer) :
    ∃ r : Tokenizer × Bool, readPunctuaction t = .ok r ∧ r.1.chars = t.chars ∧
      r.1.muChar ≤ t.muChar ∧ (r.2 = false → r.1 = t) ∧
      (r.2 = true → r.1.token.kind ≠ TokenKind.Eof ∧ r.1.muChar < t.muChar) := by
  unfold readPunctuaction
  cases hp : punctOf t.chr with
  | none => exact ⟨(t, false), rfl, rfl, le_refl _, fun _ => rfl, fun h => by cases h⟩
  | some p =>
    simp only []
    refine ⟨_, rfl, ?_, ?_, ?_, ?_⟩
    · rw [setTok_chars, advanceChar_chars]
    · rw [setTok_muChar]; exact advanceChar_muChar_le t
    · intro hfalse; simp at hfalse
    · intro _
      refine ⟨?_, ?_⟩
      · rw [setTok_kind]; decide
      · rw [setTok_muChar]; exact advanceChar_muChar_lt t (punctOf_ne_nul t.chr p hp)

theorem readMisc_spec (t : Tokenizer) :
    (∃ t2 : Tokenizer, readMisc t = .ok (t2, true) ∧ t2.chars = t.chars ∧
      t2.muChar ≤ t.muChar ∧ t2.token.kind = TokenKind.Eof) ∨
    (∃ e, readMisc t = .error (PErr.gclError e)) := by
  unfold readMisc
  by_cases hn : t.chr = nulChar
  · rw [if_pos hn]
    exact Or.inl ⟨_, rfl, rfl, le_refl _, rfl⟩
  · rw [if_neg hn]
    exact Or.inr ⟨_, rfl⟩

theorem readString_spec (t : Tokenizer) :
    (∃ r : Tokenizer × Bool, readString t = .ok r ∧ r.1.chars = t.chars ∧
      r.1.muChar ≤ t.muChar ∧ (r.2 = false → r.1 = t) ∧
      (r.2 = true → r.1.token.kind ≠ TokenKind.Eof ∧ r.1.muChar < t.muChar)) ∨
    (∃ e, readString t = .error (PErr.gclError e)) := by
  unfold readString
  by_cases hq : t.chr ≠ '"'
  · rw [if_pos hq]
    exact Or.inl ⟨(t, false), rfl, rfl, le_refl _, fun _ => rfl, fun h => by cases h⟩
  · rw [if_neg hq]
    push_neg at hq
    have hb : t.chars.length - t.index < t.charFuel := by
      unfold Tokenizer.charFuel; omega
    rcases strLoop_ok t.charFuel t "" hb with ⟨t2, s, ht2, hc, hm, hstr⟩ | ⟨e, herr⟩
    · rw [ht2]
      simp only []
      by_cases hq2 : t2.chr ≠ '"'
      · rw [if_pos hq2]
        exact Or.inr ⟨_, rfl⟩
      · rw [if_neg hq2]
        refine Or.inl ⟨_, rfl, ?_, ?_, ?_, ?_⟩
        · rw [setTok_chars, advanceChar_chars, hc]
        · rw [setTok_muChar]
          have := advanceChar_muChar_le t2
          omega
        · intro hfalse; simp at hfalse
        · intro _
          refine ⟨?_, ?_⟩
          · rw [setTok_kind]; decide
          · rw [setTok_muChar]
            have h1 := advanceChar_muChar_le t2
            have h2 := hstr (by rw [hq]; decide)
            omega
    · rw [herr]
      exact Or.inr ⟨e, rfl⟩

theorem numSign_spec (t : Tokenizer) :
    (∃ t1 neg, numSign t = .ok (t1, neg) ∧ t1.chars = t.chars ∧ t1.muChar ≤ t.muChar ∧
      ((t1 = t ∧ isDigitB t.chr 10 = true) ∨ t1.muChar < t.muChar)) ∨
    (∃ e, numSign t = .error (PErr.gclError e)) := by
  unfold numSign
  by_cases hd : isDigitB t.chr 10 = true
  · rw [if_neg (not_not_intro hd)]
    exact Or.inl ⟨t, false, rfl, rfl, le_refl _, Or.inl ⟨rfl, hd⟩⟩
  · rw [if_pos hd]
    by_cases hm : t.chr = '-'
    · rw [if_pos hm]
      exact Or.inl ⟨_, _, rfl, advanceChar_chars t, advanceChar_muChar_le t,
        Or.inr (advanceChar_muChar_lt t (by rw [hm]; decide))⟩
    · rw [if_neg hm]
      by_cases hp : t.chr = '+'
      · rw [if_pos hp]
        exact Or.inl ⟨_, _, rfl, advanceChar_chars t, advanceChar_muChar_le t,
          Or.inr (advanceChar_muChar_lt t (by rw [hp]; decide))⟩
      · rw [if_neg hp]
        exact Or.inr ⟨_, rfl⟩

theorem checkFirstDigit_spec (t : Tokenizer) (base : Nat) :
    checkFirstDigit t base = .ok (.inl (t, base)) ∨
    (∃ e, checkFirstDigit t base = .error (PErr.gclError e)) := by
  unfold checkFirstDigit
  by_cases hd : isDigitB t.chr base = true
  · rw [if_neg (not_not_intro hd)]
    exact Or.inl rfl
  · rw [if_pos hd]
    exact Or.inr ⟨_, rfl⟩

theorem numZeroBase_spec (t : Tokenizer) :
    (∃ t2 base, numZeroBase t = .ok (.inl (t2, base)) ∧ t2.chars = t.chars ∧
       t2.muChar ≤ t.muChar ∧ (t2 = t ∨ t2.muChar < t.muChar)) ∨
    (∃ t2, numZeroBase t = .ok (.inr t2) ∧ t2.chars = t.chars ∧ t2.muChar < t.muChar ∧
       t2.token.kind = TokenKind.Int) ∨
    (∃ e, numZeroBase t = .error (PErr.gclError e)) := by
  unfold numZeroBase
  by_cases h0 : t.chr = '0'
  · rw [if_pos h0]
    have hne : t.chr ≠ nulChar := by rw [h0]; decide
    have hstrict := advanceChar_muChar_lt t hne
    have hch := advanceChar_chars t
    by_cases hd : isDigitB (t.advanceChar).1.chr 10 = true
    · rw [if_neg (not_not_intro hd)]
      exact Or.inl ⟨_, 10, rfl, hch, by omega, Or.inr hstrict⟩
    · rw [if_pos hd]
      have hchb := advanceChar_chars (t.advanceChar).1
      have hmub := advanceChar_muChar_le (t.advanceChar).1
      by_cases hb : (t.advanceChar).1.chr = 'b' ∨ (t.advanceChar).1.chr = 'B'
      · rw [if_pos hb]
        rcases checkFirstDigit_spec ((t.advanceChar).1.advanceChar).1 2 with hcf | ⟨e, hcf⟩
        · rw [hcf]
          exact Or.inl ⟨_, 2, rfl, by rw [hchb, hch], by omega, Or.inr (by omega)⟩
        · rw [hcf]
          exact Or.inr (Or.inr ⟨e, rfl⟩)
      · rw [if_neg hb]
        by_cases hx : (t.advanceChar).1.chr = 'x' ∨ (t.advanceChar).1.chr = 'X'
        · rw [if_pos hx]
          rcases checkFirstDigit_spec ((t.advanceChar).1.advanceChar).1 16 with hcf | ⟨e, hcf⟩
          · rw [hcf]
            exact Or.inl ⟨_, 16, rfl, by rw [hchb, hch], by omega, Or.inr (by omega)⟩
          · rw [hcf]
            exact Or.inr (Or.inr ⟨e, rfl⟩)
        · rw [if_neg hx]
          exact Or.inr (Or.inl ⟨_, rfl, by rw [setIntToken_chars, hch],
            by rw [setIntToken_muChar]; omega, setIntToken_kind _ _⟩)
  · rw [if_neg h0]
    exact Or.inl ⟨t, 10, rfl, rfl, le_refl _, Or.inl rfl⟩

theorem readNumber_spec (t : Tokenizer) :
    (∃ r : Tokenizer × Bool, readNumber t = .ok r ∧ r.1.chars = t.chars ∧
      r.1.muChar ≤ t.muChar ∧ (r.2 = false → r.1 = t) ∧
      (r.2 = true → r.1.token.kind ≠ TokenKind.Eof ∧ r.1.muChar < t.muChar)) ∨
    (∃ e, readNumber t = .error (PErr.gclError e)) := by
  unfold readNumber
  by_cases hg : ¬ isDigitB t.chr 10 = true ∧ t.chr ≠ '-' ∧ t.chr ≠ '+'
  · rw [if_pos hg]
    exact Or.inl ⟨(t, false), rfl, rfl, le_refl _, fun _ => rfl, fun h => by cases h⟩
  · rw [if_neg hg]
    rcases numSign_spec t with ⟨t1, neg, hsign, hc1, hm1, hd1⟩ | ⟨e, herr⟩
    · rw [hsign]
      simp only []
      rcases numZeroBase_spec t1 with ⟨t2, base, hzb, hc2, hm2, hd2⟩ |
        ⟨t2, hzb, hc2, hm2, hk2⟩ | ⟨e, herr⟩
      · rw [hzb]
        simp only []
        have hbound : t2.chars.length - t2.index < t2.charFuel := by
          unfold Tokenizer.charFuel; omega
        obtain ⟨t3, value, hnl, hc3, hm3, hstr3⟩ :=
          numLoop_ok t2.charFuel t2 base (uintNat (charToDigit t2.chr base)) hbound
        rw [hnl]
        simp only []
        by_cases han : isAlnum t3.chr = true
        · rw [if_pos han]
          obtain ⟨t4, hskip, hc4, hm4⟩ :=
            alnumSkip_ok (t3.advanceChar).1.charFuel (t3.advanceChar).1
              (muChar_lt_charFuel _)
          rw [hskip]
          exact Or.inr ⟨_, rfl⟩
        · rw [if_neg han]
          refine Or.inl ⟨_, rfl, ?_, ?_, ?_, ?_⟩
          · rw [setIntToken_chars, hc3, hc2, hc1]
          · rw [setIntToken_muChar]; omega
          · intro hfalse; simp at hfalse
          · intro _
            refine ⟨?_, ?_⟩
            · rw [setIntToken_kind]; decide
            · rw [setIntToken_muChar]
              rcases hd1 with ⟨heq1, hdig⟩ | hstrict1
              · rcases hd2 with heq2 | hstrict2
                · have hne : t2.chr ≠ nulChar := by
                    rw [heq2, heq1]; exact isDigitB_ne_nul _ _ hdig
                  have hlt := hstr3 hne
                  have hmeq : t2.muChar = t.muChar := by rw [heq2, heq1]
                  omega
                · have hmeq : t1.muChar = t.muChar := by rw [heq1]
                  omega
              · omega
      · rw [hzb]
        simp only []
        refine Or.inl ⟨_, rfl, ?_, ?_, ?_, ?_⟩
        · show t2.chars = t.chars
          rw [hc2, hc1]
        · show t2.muChar ≤ t.muChar
          omega
        · intro hfalse; simp at hfalse
        · intro _
          refine ⟨?_, ?_⟩
          · show t2.token.kind ≠ TokenKind.Eof
            rw [hk2]; decide
          · show t2.muChar < t.muChar
            omega
      · rw [herr]
        exact Or.inr ⟨e, rfl⟩
    · rw [herr]
      exact Or.inr ⟨e, rfl⟩

theorem dispatchReads_spec (t : Tokenizer) :
    (∃ t2, dispatchReads t = .ok t2 ∧ t2.chars = t.chars ∧ t2.muChar ≤ t.muChar ∧
      (t2.token.kind ≠ TokenKind.Eof → t2.muChar < t.muChar)) ∨
    (∃ e, dispatchReads t = .error (PErr.gclError e)) := by
  unfold dispatchReads
  obtain ⟨r1, hr1, hc1, hm1, hf1, ht1⟩ := readIdentifier_spec t
  rcases r1 with ⟨t1, m1⟩
  rw [hr1]
  cases m1 with
  | true =>
    simp only []
    exact Or.inl ⟨t1, rfl, hc1, hm1, fun _ => (ht1 rfl).2⟩
  | false =>
    simp only []
    have heq1 : t = t1 := (hf1 rfl).symm
    subst heq1
    rcases readNumber_spec t with ⟨r2, hr2, hc2, hm2, hf2, ht2⟩ | ⟨e, herr⟩
    · rcases r2 with ⟨t2, m2⟩
      rw [hr2]
      cases m2 with
      | true =>
        simp only []
        exact Or.inl ⟨t2, rfl, hc2, hm2, fun _ => (ht2 rfl).2⟩
      | false =>
        simp only []
        have heq2 : t = t2 := (hf2 rfl).symm
        subst heq2
        obtain ⟨r3, hr3, hc3, hm3, hf3, ht3⟩ := readPunctuaction_spec t
        rcases r3 with ⟨t3, m3⟩
        rw [hr3]
        cases m3 with
        | true =>
          simp only []
          exact Or.inl ⟨t3, rfl, hc3, hm3, fun _ => (ht3 rfl).2⟩
        | false =>
          simp only []
          have heq3 : t = t3 := (hf3 rfl).symm
          subst heq3
          rcases readString_spec t with ⟨r4, hr4, hc4, hm4, hf4, ht4⟩ | ⟨e, herr⟩
          · rcases r4 with ⟨t4, m4⟩
            rw [hr4]
            cases m4 with
            | true =>
              simp only []
              exact Or.inl ⟨t4, rfl, hc4, hm4, fun _ => (ht4 rfl).2⟩
            | false =>
              simp only []
              have heq4 : t = t4 := (hf4 rfl).symm
              subst heq4
              rcases readMisc_spec t with ⟨t5, hr5, hc5, hm5, hk5⟩ | ⟨e, herr⟩
              · rw [hr5]
                simp only []
                exact Or.inl ⟨t5, rfl, hc5, hm5, fun hk => absurd hk5 hk⟩
              · rw [herr]
                exact Or.inr ⟨e, rfl⟩
          · rw [herr]
            exact Or.inr ⟨e, rfl⟩
    · rw [herr]
      exact Or.inr ⟨e, rfl⟩

theorem resetTok_chars (t : Tokenizer) : t.resetTok.chars = t.chars := rfl

theorem resetTok_muChar (t : Tokenizer) : t.resetTok.muChar = t.muChar := rfl

theorem stampEnd_chars (t : Tokenizer) : t.stampEnd.chars = t.chars := rfl

theorem stampEnd_muChar (t : Tokenizer) : t.stampEnd.muChar = t.muChar := rfl

theorem stampEnd_kind (t : Tokenizer) : t.stampEnd.token.kind = t.token.kind := rfl

theorem advance_spec (t : Tokenizer) :
    (∃ t2 b, t.advance = .ok (t2, b) ∧ t2.chars = t.chars ∧ t2.muChar ≤ t.muChar ∧
      (t2.token.kind ≠ TokenKind.Eof → t2.muChar < t.muChar)) ∨
    (∃ e, t.advance = .error (PErr.gclError e)) := by
  unfold Tokenizer.advance
  obtain ⟨ta, hta, hca, hma⟩ := skipWhitespace_ok t.charFuel t (muChar_lt_charFuel t)
  rw [hta]
  simp only []
  obtain ⟨tb, htb, hcb, hmb⟩ := commentLoop_ok ta.charFuel ta (muChar_lt_charFuel ta)
  rw [htb]
  simp only []
  rcases dispatchReads_spec tb.resetTok with ⟨td, htd, hcd, hmd, hsd⟩ | ⟨e, herr⟩
  · rw [htd]
    refine Or.inl ⟨td.stampEnd, _, rfl, ?_, ?_, ?_⟩
    · rw [stampEnd_chars]
      rw [resetTok_chars] at hcd
      rw [hcd, hcb, hca]
    · rw [stampEnd_muChar]
      rw [resetTok_muChar] at hmd
      omega
    · intro hk
      rw [stampEnd_kind] at hk
      have := hsd hk
      rw [resetTok_muChar] at this
      rw [stampEnd_muChar]
      omega
  · rw [herr]
    exact Or.inr ⟨e, rfl⟩

theorem advance_not_fuelOut (t : Tokenizer) : hitsFuelOut t.advance = false := by
  rcases advance_spec t with ⟨t2, b, heq, _⟩ | ⟨e, heq⟩ <;> rw [heq] <;> rfl

theorem advance_muTok (t t2 : Tokenizer) (b : Bool) (h : t.advance = .ok (t2, b)) :
    t2.chars = t.chars ∧ t2.muTok ≤ t.muTok ∧
    (t.token.kind ≠ TokenKind.Eof → t2.muTok < t.muTok) := by
  rcases advance_spec t with ⟨t2x, bx, heq, hc, hm, hs⟩ | ⟨e, heq⟩
  · rw [heq] at h
    injection h with h1
    injection h1 with h2 h3
    subst h2
    refine ⟨hc, ?_, ?_⟩
    · unfold Tokenizer.muTok
      by_cases hk2 : t2x.token.kind = TokenKind.Eof
      · rw [if_pos hk2]
        by_cases hk : t.token.kind = TokenKind.Eof
        · rw [if_pos hk]; omega
        · rw [if_neg hk]; omega
      · rw [if_neg hk2]
        have := hs hk2
        by_cases hk : t.token.kind = TokenKind.Eof
        · rw [if_pos hk]; omega
        · rw [if_neg hk]; omega
    · intro hk
      unfold Tokenizer.muTok
      rw [if_neg hk]
      by_cases hk2 : t2x.token.kind = TokenKind.Eof
      · rw [if_pos hk2]; omega
      · rw [if_neg hk2]
        have := hs hk2
        omega
  · rw [heq] at h
    cases h

/-- All five parser functions never increase the remaining-input measure,
by induction on the fuel. -/
theorem parser_muTok_mono :
    ∀ fuel : Nat,
      (∀ tk b v tk2, parseValue fuel tk = .ok (b, v, tk2) → tk2.muTok ≤ tk.muTok) ∧
      (∀ tk vs tk2, parseArray fuel tk = .ok (vs, tk2) → tk2.muTok ≤ tk.muTok) ∧
      (∀ tk es tk2, parseDict fuel tk = .ok (es, tk2) → tk2.muTok ≤ tk.muTok) ∧
      (∀ acc tk vs tk2, arrayLoop fuel acc tk = .ok (vs, tk2) → tk2.muTok ≤ tk.muTok) ∧
      (∀ acc tk es tk2, dictLoop fuel acc tk = .ok (es, tk2) → tk2.muTok ≤ tk.muTok) := by
  intro fuel
  induction fuel with
  | zero =>
    refine ⟨?_, ?_, ?_, ?_, ?_⟩
    · intro tk b v tk2 h; rw [parseValue_zero] at h; cases h
    · intro tk vs tk2 h; rw [parseArray_zero] at h; cases h
    · intro tk es tk2 h; rw [parseDict_zero] at h; cases h
    · intro acc tk vs tk2 h; rw [arrayLoop_zero] at h; cases h
    · intro acc tk es tk2 h; rw [dictLoop_zero] at h; cases h
  | succ fuel ih =>
    obtain ⟨ihv, iha, ihd, ihal, ihdl⟩ := ih
    refine ⟨?_, ?_, ?_, ?_, ?_⟩
    · -- parseValue
      intro tk b v tk2 h
      rw [parseValue_succ] at h
      unfold parseValueBody at h
      rw [parserFns_dictFn, parserFns_arrayFn] at h
      split at h
      · split at h
        · cases hd : parseDict fuel tk with
          | error e => rw [hd] at h; cases h
          | ok r =>
            rcases r with ⟨entries, tkx⟩
            rw [hd] at h
            injection h with h1
            injection h1 with hb h1
            injection h1 with hv2 htk
            subst htk
            exact ihd tk entries tkx hd
        · split at h
          · cases ha : parseArray fuel tk with
            | error e => rw [ha] at h; cases h
            | ok r =>
              rcases r with ⟨elems, tkx⟩
              rw [ha] at h
              injection h with h1
              injection h1 with hb h1
              injection h1 with hv2 htk
              subst htk
              exact iha tk elems tkx ha
          · injection h with h1
            injection h1 with hb h1
            injection h1 with hv2 htk
            subst htk
            exact le_refl _
      · cases hadv : tk.advance with
        | error e => rw [hadv] at h; cases h
        | ok r =>
          rcases r with ⟨tkx, bx⟩
          rw [hadv] at h
          injection h with h1
          injection h1 with hb h1
          injection h1 with hv2 htk
          subst htk
          exact (advance_muTok tk tkx bx (by rw [hadv])).2.1
      · cases hadv : tk.advance with
        | error e => rw [hadv] at h; cases h
        | ok r =>
          rcases r with ⟨tkx, bx⟩
          rw [hadv] at h
          injection h with h1
          injection h1 with hb h1
          injection h1 with hv2 htk
          subst htk
          exact (advance_muTok tk tkx bx (by rw [hadv])).2.1
      · cases hadv : tk.advance with
        | error e => rw [hadv] at h; cases h
        | ok r =>
          rcases r with ⟨tkx, bx⟩
          rw [hadv] at h
          injection h with h1
          injection h1 with hb h1
          injection h1 with hv2 htk
          subst htk
          exact (advance_muTok tk tkx bx (by rw [hadv])).2.1
      · split at h
        · cases hadv : tk.advance with
          | error e => rw [hadv] at h; cases h
          | ok r =>
            rcases r with ⟨tkx, bx⟩
            rw [hadv] at h
            injection h with h1
            injection h1 with hb h1
            injection h1 with hv2 htk
            subst htk
            exact (advance_muTok tk tkx bx (by rw [hadv])).2.1
        · split at h
          · cases hadv : tk.advance with
            | error e => rw [hadv] at h; cases h
            | ok r =>
              rcases r with ⟨tkx, bx⟩
              rw [hadv] at h
              injection h with h1
              injection h1 with hb h1
              injection h1 with hv2 htk
              subst htk
              exact (advance_muTok tk tkx bx (by rw [hadv])).2.1
          · split at h
            · cases hadv : tk.advance with
              | error e => rw [hadv] at h; cases h
              | ok r =>
                rcases r with ⟨tkx, bx⟩
                rw [hadv] at h
                injection h with h1
                injection h1 with hb h1
                injection h1 with hv2 htk
                subst htk
                exact (advance_muTok tk tkx bx (by rw [hadv])).2.1
            · injection h with h1
              injection h1 with hb h1
              injection h1 with hv2 htk
              subst htk
              exact le_refl _
      · injection h with h1
        injection h1 with hb h1
        injection h1 with hv2 htk
        subst htk
        exact le_refl _
    · -- parseArray
      intro tk vs tk2 h
      rw [parseArray_succ] at h
      unfold parseArrayBody at h
      rw [parserFns_arrayLoopFn] at h
      cases hadv : tk.advance with
      | error e => rw [hadv] at h; cases h
      | ok r =>
        rcases r with ⟨tk1, b1⟩
        rw [hadv] at h
        simp only [] at h
        have hm1 := (advance_muTok tk tk1 b1 (by rw [hadv])).2.1
        cases hl : arrayLoop fuel [] tk1 with
        | error e => rw [hl] at h; cases h
        | ok r2 =>
          rcases r2 with ⟨elems, tkx⟩
          rw [hl] at h
          simp only [] at h
          have hmx := ihal [] tk1 elems tkx hl
          split at h
          · cases hadv2 : tkx.advance with
            | error e => rw [hadv2] at h; cases h
            | ok r3 =>
              rcases r3 with ⟨tky, by2⟩
              rw [hadv2] at h
              injection h with h1
              injection h1 with hvs htk
              subst htk
              have hmy := (advance_muTok tkx tky by2 (by rw [hadv2])).2.1
              omega
          · cases h
    · -- parseDict
      intro tk es tk2 h
      rw [parseDict_succ] at h
      unfold parseDictBody at h
      rw [parserFns_dictLoopFn] at h
      cases hadv : tk.advance with
      | error e => rw [hadv] at h; cases h
      | ok r =>
        rcases r with ⟨tk1, b1⟩
        rw [hadv] at h
        simp only [] at h
        have hm1 := (advance_muTok tk tk1 b1 (by rw [hadv])).2.1
        cases hl : dictLoop fuel [] tk1 with
        | error e => rw [hl] at h; cases h
        | ok r2 =>
          rcases r2 with ⟨entries, tkx⟩
          rw [hl] at h
          simp only [] at h
          have hmx := ihdl [] tk1 entries tkx hl
          split at h
          · cases hadv2 : tkx.advance with
            | error e => rw [hadv2] at h; cases h
            | ok r3 =>
              rcases r3 with ⟨tky, by2⟩
              rw [hadv2] at h
              injection h with h1
              injection h1 with hes htk
              subst htk
              have hmy := (advance_muTok tkx tky by2 (by rw [hadv2])).2.1
              omega
          · cases h
    · -- arrayLoop
      intro acc tk vs tk2 h
      rw [arrayLoop_succ] at h
      unfold arrayLoopBody at h
      rw [parserFns_valueFn, parserFns_arrayLoopFn] at h
      cases hpv : parseValue fuel tk with
      | error e => rw [hpv] at h; cases h
      | ok r =>
        rcases r with ⟨okb, v, tk1⟩
        rw [hpv] at h
        simp only [] at h
        have hm1 := ihv tk okb v tk1 hpv
        split at h
        · cases h
        · split at h
          · cases hadv : tk1.advance with
            | error e => rw [hadv] at h; cases h
            | ok r2 =>
              rcases r2 with ⟨tkx, bx⟩
              rw [hadv] at h
              simp only [] at h
              have hmx := (advance_muTok tk1 tkx bx (by rw [hadv])).2.1
              have hmy := ihal (acc ++ [v]) tkx vs tk2 h
              omega
          · split at h
            · injection h with h1
              injection h1 with hvs htk
              subst htk
              exact hm1
            · cases h
    · -- dictLoop
      intro acc tk es tk2 h
      rw [dictLoop_succ] at h
      unfold dictLoopBody at h
      rw [parserFns_valueFn, parserFns_dictLoopFn] at h
      split at h
      · injection h with h1
        injection h1 with hes htk
        subst htk
        exact le_refl _
      · cases hadv : tk.advance with
        | error e => rw [hadv] at h; cases h
        | ok r =>
          rcases r with ⟨tk1, b1⟩
          rw [hadv] at h
          simp only [] at h
          have hm1 := (advance_muTok tk tk1 b1 (by rw [hadv])).2.1
          split at h
          · cases h
          · cases hadv2 : tk1.advance with
            | error e => rw [hadv2] at h; cases h
            | ok r2 =>
              rcases r2 with ⟨tkx, bx⟩
              rw [hadv2] at h
              simp only [] at h
              have hm2 := (advance_muTok tk1 tkx bx (by rw [hadv2])).2.1
              cases hpv : parseValue fuel tkx with
              | error e => rw [hpv] at h; cases h
              | ok r3 =>
                rcases r3 with ⟨okb, v, tk3⟩
                rw [hpv] at h
                simp only [] at h
                have hm3 := ihv tkx okb v tk3 hpv
                split at h
                · cases h
                · cases hins : dictInsert acc tk.token.getIdent v with
                  | none => rw [hins] at h; cases h
                  | some acc2 =>
                    rw [hins] at h
                    simp only [] at h
                    split at h
                    · cases hadv3 : tk3.advance with
                      | error e => rw [hadv3] at h; cases h
                      | ok r4 =>
                        rcases r4 with ⟨tk4, b4⟩
                        rw [hadv3] at h
                        simp only [] at h
                        have hm4 := (advance_muTok tk3 tk4 b4 (by rw [hadv3])).2.1
                        have hm5 := ihdl acc2 tk4 es tk2 h
                        omega
                    · split at h
                      · injection h with h1
                        injection h1 with hes htk
                        subst htk
                        omega
                      · cases h

/-- Fuel sufficiency: with fuel at least `3 * muTok + c` (for small
per-function constants `c`), no parser function runs out of fuel.  Each
completed loop iteration consumes at least one token, so the measure
strictly decreases faster than the fuel. -/
theorem parser_noFuelOut :
    ∀ fuel : Nat,
      (∀ tk, 3 * tk.muTok + 2 ≤ fuel → hitsFuelOut (parseValue fuel tk) = false) ∧
      (∀ tk, tk.token.kind ≠ TokenKind.Eof → 3 * tk.muTok + 1 ≤ fuel →
          hitsFuelOut (parseArray fuel tk) = false) ∧
      (∀ tk, tk.token.kind ≠ TokenKind.Eof → 3 * tk.muTok + 1 ≤ fuel →
          hitsFuelOut (parseDict fuel tk) = false) ∧
      (∀ acc tk, 3 * tk.muTok + 3 ≤ fuel → hitsFuelOut (arrayLoop fuel acc tk) = false) ∧
      (∀ acc tk, 3 * tk.muTok + 3 ≤ fuel → hitsFuelOut (dictLoop fuel acc tk) = false) := by
  intro fuel
  induction fuel with
  | zero =>
    refine ⟨?_, ?_, ?_, ?_, ?_⟩
    · intro tk hb; omega
    · intro tk hk hb; omega
    · intro tk hk hb; omega
    · intro acc tk hb; omega
    · intro acc tk hb; omega
  | succ fuel ih =>
    obtain ⟨ihv, iha2, ihd, ihal, ihdl⟩ := ih
    refine ⟨?_, ?_, ?_, ?_, ?_⟩
    · -- parseValue
      intro tk hb
      rw [parseValue_succ]
      unfold parseValueBody
      rw [parserFns_dictFn, parserFns_arrayFn]
      cases hk : tk.token.kind with
      | Punctuaction =>
        simp only []
        have hknm : tk.token.kind ≠ TokenKind.Eof := by rw [hk]; decide
        by_cases hlb : tk.token.getPunct = Punctuaction.Lbrace
        · rw [if_pos hlb]
          have hpd := ihd tk hknm (by omega)
          cases hd : parseDict fuel tk with
          | error e =>
            rw [hd] at hpd
            cases e with
            | fuelOut => exact absurd hpd (by simp [hitsFuelOut])
            | gclError e2 => rfl
          | ok r =>
            rcases r with ⟨entries, tkx⟩
            rfl
        · rw [if_neg hlb]
          by_cases hls : tk.token.getPunct = Punctuaction.Lsqb
          · rw [if_pos hls]
            have hpa := iha2 tk hknm (by omega)
            cases ha : parseArray fuel tk with
            | error e =>
              rw [ha] at hpa
              cases e with
              | fuelOut => exact absurd hpa (by simp [hitsFuelOut])
              | gclError e2 => rfl
            | ok r =>
              rcases r with ⟨elems, tkx⟩
              rfl
          · rw [if_neg hls]
            rfl
      | String =>
        simp only []
        cases hadv : tk.advance with
        | error e =>
          have := advance_not_fuelOut tk
          rw [hadv] at this
          cases e with
          | fuelOut => exact absurd this (by simp [hitsFuelOut])
          | gclError e2 => rfl
        | ok r =>
          rcases r with ⟨tkx, bx⟩
          rfl
      | Int =>
        simp only []
        cases hadv : tk.advance with
        | error e =>
          have := advance_not_fuelOut tk
          rw [hadv] at this
          cases e with
          | fuelOut => exact absurd this (by simp [hitsFuelOut])
          | gclError e2 => rfl
        | ok r =>
          rcases r with ⟨tkx, bx⟩
          rfl
      | Float =>
        simp only []
        cases hadv : tk.advance with
        | error e =>
          have := advance_not_fuelOut tk
          rw [hadv] at this
          cases e with
          | fuelOut => exact absurd this (by simp [hitsFuelOut])
          | gclError e2 => rfl
        | ok r =>
          rcases r with ⟨tkx, bx⟩
          rfl
      | Identifier =>
        simp only []
        by_cases ht : tk.token.getIdent = "true"
        · rw [if_pos ht]
          cases hadv : tk.advance with
          | error e =>
            have := advance_not_fuelOut tk
            rw [hadv] at this
            cases e with
            | fuelOut => exact absurd this (by simp [hitsFuelOut])
            | gclError e2 => rfl
          | ok r =>
            rcases r with ⟨tkx, bx⟩
            rfl
        · rw [if_neg ht]
          by_cases hf : tk.token.getIdent = "false"
          · rw [if_pos hf]
            cases hadv : tk.advance with
            | error e =>
              have := advance_not_fuelOut tk
              rw [hadv] at this
              cases e with
              | fuelOut => exact absurd this (by simp [hitsFuelOut])
              | gclError e2 => rfl
            | ok r =>
              rcases r with ⟨tkx, bx⟩
              rfl
          · rw [if_neg hf]
            by_cases hn : tk.token.getIdent = "null"
            · rw [if_pos hn]
              cases hadv : tk.advance with
              | error e =>
                have := advance_not_fuelOut tk
                rw [hadv] at this
                cases e with
                | fuelOut => exact absurd this (by simp [hitsFuelOut])
                | gclError e2 => rfl
              | ok r =>
                rcases r with ⟨tkx, bx⟩
                rfl
            · rw [if_neg hn]
              rfl
      | Eof => rfl
    · -- parseArray
      intro tk hknm hb
      rw [parseArray_succ]
      unfold parseArrayBody
      rw [parserFns_arrayLoopFn]
      cases hadv : tk.advance with
      | error e =>
        have := advance_not_fuelOut tk
        rw [hadv] at this
        cases e with
        | fuelOut => exact absurd this (by simp [hitsFuelOut])
        | gclError e2 => rfl
      | ok r =>
        rcases r with ⟨tk1, b1⟩
        simp only []
        have hstrict := (advance_muTok tk tk1 b1 (by rw [hadv])).2.2 hknm
        have hal := ihal [] tk1 (by omega)
        cases hl : arrayLoop fuel [] tk1 with
        | error e =>
          rw [hl] at hal
          cases e with
          | fuelOut => exact absurd hal (by simp [hitsFuelOut])
          | gclError e2 => rfl
        | ok r2 =>
          rcases r2 with ⟨elems, tkx⟩
          simp only []
          split
          · cases hadv2 : tkx.advance with
            | error e =>
              have := advance_not_fuelOut tkx
              rw [hadv2] at this
              cases e with
              | fuelOut => exact absurd this (by simp [hitsFuelOut])
              | gclError e2 => rfl
            | ok r3 =>
              rcases r3 with ⟨tky, by2⟩
              rfl
          · rfl
    · -- parseDict
      intro tk hknm hb
      rw [parseDict_succ]
      unfold parseDictBody
      rw [parserFns_dictLoopFn]
      cases hadv : tk.advance with
      | error e =>
        have := advance_not_fuelOut tk
        rw [hadv] at this
        cases e with
        | fuelOut => exact absurd this (by simp [hitsFuelOut])
        | gclError e2 => rfl
      | ok r =>
        rcases r with ⟨tk1, b1⟩
        simp only []
        have hstrict := (advance_muTok tk tk1 b1 (by rw [hadv])).2.2 hknm
        have hdl := ihdl [] tk1 (by omega)
        cases hl : dictLoop fuel [] tk1 with
        | error e =>
          rw [hl] at hdl
          cases e with
          | fuelOut => exact absurd hdl (by simp [hitsFuelOut])
          | gclError e2 => rfl
        | ok r2 =>
          rcases r2 with ⟨entries, tkx⟩
          simp only []
          split
          · cases hadv2 : tkx.advance with
            | error e =>
              have := advance_not_fuelOut tkx
              rw [hadv2] at this
              cases e with
              | fuelOut => exact absurd this (by simp [hitsFuelOut])
              | gclError e2 => rfl
            | ok r3 =>
              rcases r3 with ⟨tky, by2⟩
              rfl
          · rfl
    · -- arrayLoop
      intro acc tk hb
      rw [arrayLoop_succ]
      unfold arrayLoopBody
      rw [parserFns_valueFn, parserFns_arrayLoopFn]
      have hpv0 := ihv tk (by omega)
      cases hpv : parseValue fuel tk with
      | error e =>
        rw [hpv] at hpv0
        cases e with
        | fuelOut => exact absurd hpv0 (by simp [hitsFuelOut])
        | gclError e2 => rfl
      | ok r =>
        rcases r with ⟨okb, v, tk1⟩
        simp only []
        have hmono := (parser_muTok_mono fuel).1 tk okb v tk1 hpv
        split
        · rfl
        · split
          · rename_i hok hcomma
            cases hadv : tk1.advance with
            | error e =>
              have := advance_not_fuelOut tk1
              rw [hadv] at this
              cases e with
              | fuelOut => exact absurd this (by simp [hitsFuelOut])
              | gclError e2 => rfl
            | ok r2 =>
              rcases r2 with ⟨tkx, bx⟩
              simp only []
              have hknm : tk1.token.kind ≠ TokenKind.Eof := by rw [hcomma.1]; decide
              have hstrict := (advance_muTok tk1 tkx bx (by rw [hadv])).2.2 hknm
              exact ihal (acc ++ [v]) tkx (by omega)
          · split
            · rfl
            · rfl
    · -- dictLoop
      intro acc tk hb
      rw [dictLoop_succ]
      unfold dictLoopBody
      rw [parserFns_valueFn, parserFns_dictLoopFn]
      split
      · rfl
      · rename_i hident
        have hkid : tk.token.kind = TokenKind.Identifier := not_not.mp hident
        cases hadv : tk.advance with
        | error e =>
          have := advance_not_fuelOut tk
          rw [hadv] at this
          cases e with
          | fuelOut => exact absurd this (by simp [hitsFuelOut])
          | gclError e2 => rfl
        | ok r =>
          rcases r with ⟨tk1, b1⟩
          simp only []
          have hknm : tk.token.kind ≠ TokenKind.Eof := by rw [hkid]; decide
          have hs1 := (advance_muTok tk tk1 b1 (by rw [hadv])).2.2 hknm
          split
          · rfl
          · rename_i hcolon
            have hcol := not_not.mp hcolon
            cases hadv2 : tk1.advance with
            | error e =>
              have := advance_not_fuelOut tk1
              rw [hadv2] at this
              cases e with
              | fuelOut => exact absurd this (by simp [hitsFuelOut])
              | gclError e2 => rfl
            | ok r2 =>
              rcases r2 with ⟨tkx, bx⟩
              simp only []
              have hknm2 : tk1.token.kind ≠ TokenKind.Eof := by rw [hcol.1]; decide
              have hs2 := (advance_muTok tk1 tkx bx (by rw [hadv2])).2.2 hknm2
              have hpv0 := ihv tkx (by omega)
              cases hpv : parseValue fuel tkx with
              | error e =>
                rw [hpv] at hpv0
                cases e with
                | fuelOut => exact absurd hpv0 (by simp [hitsFuelOut])
                | gclError e2 => rfl
              | ok r3 =>
                rcases r3 with ⟨okb, v, tk3⟩
                simp only []
                have hmono := (parser_muTok_mono fuel).1 tkx okb v tk3 hpv
                split
                · rfl
                · cases hins : dictInsert acc tk.token.getIdent v with
                  | none => rfl
                  | some acc2 =>
                    simp only []
                    split
                    · rename_i hok hcomma
                      cases hadv3 : tk3.advance with
                      | error e =>
                        have := advance_not_fuelOut tk3
                        rw [hadv3] at this
                        cases e with
                        | fuelOut => exact absurd this (by simp [hitsFuelOut])
                        | gclError e2 => rfl
                      | ok r4 =>
                        rcases r4 with ⟨tk4, b4⟩
                        simp only []
                        have hknm3 : tk3.token.kind ≠ TokenKind.Eof := by
                          rw [hcomma.1]; decide
                        have hs3 := (advance_muTok tk3 tk4 b4 (by rw [hadv3])).2.2 hknm3
                        exact ihdl acc2 tk4 (by omega)
                    · split
                      · rfl
                      · rfl


/-- C9: parsing an empty buffer reads no byte of the buffer (`setText` installs
`'\0'` without a read and the first `advance` yields an Eof token at once),
and `parse` on it returns a clean `false` with the output left Undefined; more
generally every character read is in bounds: a successful `advanceChar` step
moves to exactly index+1, strictly below the buffer length, and loads the
character stored there, while a failed step leaves the index alone and installs
`'\0'` instead of reading, and `setText` reads index 0 only when the buffer is
non-empty. -/
theorem tokenizer_never_reads_past_end :
    (parse [] = Except.ok (false, GValue.undefined)) ∧
    ((Tokenizer.setText []).chr = nulChar) ∧
    (∃ t2 b, (Tokenizer.setText []).advance = Except.ok (t2, b) ∧
        t2.token.kind = TokenKind.Eof) ∧
    (∀ t t2 : Tokenizer, t.advanceChar = (t2, true) →
        t2.index = t.index + 1 ∧ t2.index < t.chars.length ∧
        t2.chr = t.chars.getD t2.index nulChar) ∧
    (∀ t t2 : Tokenizer, t.advanceChar = (t2, false) →
        t2.index = t.index ∧ t2.chr = nulChar) ∧
    (∀ chars : List Char, (Tokenizer.setText chars).chr =
        if chars.length > 0 then chars.getD 0 nulChar else nulChar) := by
  refine ⟨rfl, rfl, ⟨_, _, rfl, rfl⟩, ?_, ?_, fun chars => rfl⟩
  · intro t t2 h
    unfold Tokenizer.advanceChar at h
    split_ifs at h with h1 h2
    · injection h with ha hb
      exact absurd hb (by decide)
    · injection h with ha hb
      subst ha
      refine ⟨rfl, ?_, rfl⟩
      show t.index + 1 < t.chars.length
      omega
    · injection h with ha hb
      subst ha
      refine ⟨rfl, ?_, rfl⟩
      show t.index + 1 < t.chars.length
      omega
  · intro t t2 h
    unfold Tokenizer.advanceChar at h
    split_ifs at h with h1 h2
    · injection h with ha hb
      subst ha
      exact ⟨rfl, rfl⟩
    · injection h with ha hb
      exact absurd hb (by decide)
    · injection h with ha hb
      exact absurd hb (by decide)

/-- C10: for every finite input buffer the whole pipeline terminates: a single
`Tokenizer::advance` never runs out of fuel (each inner loop advances the
cursor or stops at end of input), the array and dict parsing loops run out of
fuel under no sufficient fuel bound (each iteration consumes at least one
token, shrinking `muTok`), and `parse` itself, run with the fuel it supplies,
never exhausts it. -/
theorem parse_always_terminates :
    (∀ t : Tokenizer, hitsFuelOut t.advance = false) ∧
    (∀ fuel acc tk, 3 * tk.muTok + 3 ≤ fuel →
        hitsFuelOut (arrayLoop fuel acc tk) = false) ∧
    (∀ fuel acc tk, 3 * tk.muTok + 3 ≤ fuel →
        hitsFuelOut (dictLoop fuel acc tk) = false) ∧
    (∀ chars : List Char, hitsFuelOut (parse chars) = false) := by
  refine ⟨advance_not_fuelOut, ?_, ?_, ?_⟩
  · intro fuel acc tk hb
    exact (parser_noFuelOut fuel).2.2.2.1 acc tk hb
  · intro fuel acc tk hb
    exact (parser_noFuelOut fuel).2.2.2.2 acc tk hb
  · intro chars
    unfold parse
    cases hadv : (Tokenizer.setText chars).advance with
    | error e =>
      have := advance_not_fuelOut (Tokenizer.setText chars)
      rw [hadv] at this
      cases e with
      | fuelOut => exact absurd this (by simp [hitsFuelOut])
      | gclError e2 => rfl
    | ok r =>
      rcases r with ⟨tk, b⟩
      simp only []
      have hmu := (advance_muTok (Tokenizer.setText chars) tk b hadv).2.1
      have hmc : (Tokenizer.setText chars).muChar ≤ chars.length + 1 := by
        unfold Tokenizer.muChar Tokenizer.setText
        simp only []
        split_ifs <;> omega
      have hmt : (Tokenizer.setText chars).muTok ≤ 2 * chars.length + 3 := by
        unfold Tokenizer.muTok
        split_ifs <;> omega
      have hb : 3 * tk.muTok + 2 ≤ parserFuel chars := by
        unfold parserFuel
        omega
      have hv := (parser_noFuelOut (parserFuel chars)).1 tk hb
      cases hpv : parseValue (parserFuel chars) tk with
      | error e =>
        rw [hpv] at hv
        cases e with
        | fuelOut => exact absurd hv (by simp [hitsFuelOut])
        | gclError e2 => rfl
      | ok r2 =>
        rcases r2 with ⟨ok2, v, tkx⟩
        rfl

end Gcl
